import Mathlib

/-!
# The chart decoder of `kyldr` (`src/lib/hyper-graph.cc`, `include/kyldr/feature-set.h`)

A shallow embedding of `HyperGraph` (feature cache, cube-pruning chart
construction, rescoring, aggregation over the best derivation) and of the
feature storage of `FeatureSet` (`AddNodeFeatures`, `AddEdgeFeatures`),
together with the properties proved about them.

Conventions of the embedding.

* A `double` is an exact number of an arbitrary linearly ordered commutative ring `α`; the
  unscored sentinel `-DBL_MAX` is the bottom element `⊥` of `WithBot α`, so the
  test `score == -DBL_MAX` reads `score = ⊥` and nothing computed collides
  with it.  `loss` and feature weights are plain `α`.
* A `TargetSpan*` is an address into `HyperGraph.heap`, `NULL` is `none`.
  A `SpanStack` is the vector of the addresses of its spans in rank order.
  The spans that `ProcessOneSpan` creates are returned by value, in rank
  order, and get their addresses when `SetStack` stores the cell.
* Operations that can dereference `NULL`, leave a vector or throw return
  `Except Fault`; loops that have no syntactic bound run on fuel and report
  `Fault.nonTermination` when it is used up.
* The collaborators that are only declared in headers outside the sources at
  hand (`ReordererModel`, `FeatureSet::MakeEdgeFeatures`, `GetMaxTerm`, the
  tie-breaking part of `Hypothesis::operator<`) are parameters.
-/

set_option autoImplicit false

namespace Kyldr

/-- The ways a run of the decoder can go wrong. -/
inductive Fault where
  | nullPointer
  | outOfBounds
  | noFeatures
  | nonTermination
  | unknownFeature
  deriving DecidableEq

/-- The tag `HyperEdge::Type`. -/
inductive HyperEdgeType where
  | EDGE_FOR
  | EDGE_STR
  | EDGE_BAC
  | EDGE_INV
  | EDGE_ROOT
  deriving DecidableEq

/-- The value type `HyperEdge(l, c, r, t)`, the key of the feature cache. -/
structure HyperEdge where
  left : Int
  center : Int
  right : Int
  type : HyperEdgeType
  deriving DecidableEq

/-- An integer-indexed feature vector `FeatureVectorInt`: pairs of feature id and weight. -/
abbrev FeatureVectorInt (α : Type) := List (Int × α)

/-- One of the per-factor data objects a sentence is made of: its words. -/
structure FeatureDataBase where
  words : List String
  deriving DecidableEq

/-- The input `Sentence`: a vector of `FeatureDataBase` objects. -/
abbrev Sentence := List FeatureDataBase

/-- The call `GetNumWords()` of one factor of the sentence. -/
def FeatureDataBase.GetNumWords (d : FeatureDataBase) : Int := (d.words.length : Int)

/-- The collaborator `ReordererModel`, used only through `ScoreFeatureVector`. -/
structure ReordererModel (α : Type) where
  ScoreFeatureVector : FeatureVectorInt α → α

/-- The collaborator `FeatureSet`: its mutable state (the symbol table), the
call `MakeEdgeFeatures`, which may change that state, and `GetMaxTerm`. -/
structure FeatureSet (σ α : Type) where
  state : σ
  MakeEdgeFeatures : σ → Sentence → HyperEdge → FeatureVectorInt α × σ
  GetMaxTerm : Int

/-- A `Hypothesis`; the fields are those its constructor takes, and `loss`. -/
structure Hypothesis (α : Type) where
  score : WithBot α
  loss : α
  left : Int
  right : Int
  trg_left : Int
  trg_right : Int
  type : HyperEdgeType
  center : Int
  left_rank : Int
  right_rank : Int
  left_child : Option Nat
  right_child : Option Nat
  deriving DecidableEq

/-- A `TargetSpan`: its identity and its hypotheses in rank order. -/
structure TargetSpan (α : Type) where
  left : Int
  right : Int
  trg_left : Int
  trg_right : Int
  hyps : List (Hypothesis α)
  deriving DecidableEq

/-- A `SpanStack`: the addresses of the spans of one cell, in rank order. -/
abbrev SpanStack := List Nat

/-- The object `HyperGraph`: the feature cache `features_`, the chart
`stacks_` (a slot is `none` while it has not been set), and the store of the
`TargetSpan` objects. -/
structure HyperGraph (α : Type) where
  features_ : List (HyperEdge × FeatureVectorInt α)
  stacks_ : List (Option SpanStack)
  heap : List (TargetSpan α)

/-- The priority queue of `ProcessOneSpan`: the bag of its entries. -/
abbrev HypothesisQueue (α : Type) := List (Hypothesis α)

/-- The state of the beam search loop of `ProcessOneSpan`: the queue, the map
`spans` (its values, ascending in the key `(trg_left, trg_right)`) and the
counter. -/
structure BeamState (α : Type) where
  q : HypothesisQueue α
  spans : List (TargetSpan α)
  num_processed : Nat

section Code

variable {α : Type} [LinearOrderedCommRing α] {σ : Type}

/-- Modelled from the spec: the constructor of `Hypothesis` (declared in
`hypothesis.h`): it takes the score, the source and target span, the type, the
center, the ranks and the children; the loss starts at zero. -/
def Hypothesis.make (score : WithBot α) (left right trg_left trg_right : Int)
    (type : HyperEdgeType) (center left_rank right_rank : Int)
    (left_child right_child : Option Nat) : Hypothesis α :=
  { score := score, loss := 0, left := left, right := right, trg_left := trg_left,
    trg_right := trg_right, type := type, center := center, left_rank := left_rank,
    right_rank := right_rank, left_child := left_child, right_child := right_child }

/-- The difference of two scores; on the sentinel it stays the sentinel. -/
def subScore (a b : WithBot α) : WithBot α :=
  match a, b with
  | some x, some y => ((x - y : α) : WithBot α)
  | _, _ => ⊥

/-- Modelled from the spec: `Hypothesis::operator<` (declared in
`hypothesis.h`) orders by score; what it does between equal scores is the
parameter `tie`. -/
def Hypothesis.less (tie : Hypothesis α → Hypothesis α → Bool) (a b : Hypothesis α) : Bool :=
  decide (a.score < b.score) || (decide (a.score = b.score) && tie a b)

/-- Modelled from the spec: `TargetSpan::GetScore` (declared in
`target-span.h`): the score of the rank-0 hypothesis, the sentinel when there
is none. -/
def TargetSpan.GetScore (t : TargetSpan α) : WithBot α :=
  match t.hyps with
  | [] => ⊥
  | h :: _ => h.score

/-- Modelled from the spec: `TargetSpan::AddHypothesis` appends a copy. -/
def TargetSpan.AddHypothesis (t : TargetSpan α) (hyp : Hypothesis α) : TargetSpan α :=
  { t with hyps := t.hyps ++ [hyp] }

/-- The comparison `DescendingScore` on hypotheses, as the relation "may stand before". -/
def descHyp (a b : Hypothesis α) : Prop := b.score ≤ a.score

/-- The comparison `DescendingScore` on spans, as the relation "may stand before". -/
def descSpan (a b : TargetSpan α) : Prop := b.GetScore ≤ a.GetScore

instance descHypDecidable : DecidableRel (descHyp : Hypothesis α → Hypothesis α → Prop) :=
  fun a b => inferInstanceAs (Decidable (b.score ≤ a.score))

instance descSpanDecidable : DecidableRel (descSpan : TargetSpan α → TargetSpan α → Prop) :=
  fun a b => inferInstanceAs (Decidable (b.GetScore ≤ a.GetScore))

/-- The lookup `features_.find(edge)`. -/
def findFeatures (m : List (HyperEdge × FeatureVectorInt α)) (edge : HyperEdge) :
    Option (FeatureVectorInt α) :=
  match m with
  | [] => none
  | (e, v) :: rest => if e = edge then some v else findFeatures rest edge

/-- The method `HyperGraph::GetEdgeFeatures`: the vector, the graph and the feature set afterwards. -/
def GetEdgeFeatures (hg : HyperGraph α) (feature_gen : FeatureSet σ α) (sent : Sentence)
    (edge : HyperEdge) : FeatureVectorInt α × HyperGraph α × FeatureSet σ α :=
  match findFeatures hg.features_ edge with
  | none =>
    let made := feature_gen.MakeEdgeFeatures feature_gen.state sent edge
    (made.1, { hg with features_ := hg.features_ ++ [(edge, made.1)] },
      { feature_gen with state := made.2 })
  | some ret => (ret, hg, feature_gen)

/-- The method `HyperGraph::GetEdgeScore`. -/
def GetEdgeScore (hg : HyperGraph α) (model : ReordererModel α) (feature_gen : FeatureSet σ α)
    (sent : Sentence) (edge : HyperEdge) : α × HyperGraph α × FeatureSet σ α :=
  let got := GetEdgeFeatures hg feature_gen sent edge
  (model.ScoreFeatureVector got.1, got.2.1, got.2.2)

/-- Modelled from the spec: `HyperGraph::GetTrgSpanID` (declared in
`hyper-graph.h`), the place of cell `(l, r)` in the triangular table. -/
def GetTrgSpanID (l r : Int) : Int := r * (r + 1) / 2 + l

/-- Modelled from the spec: `HyperGraph::GetTrgSpan(l, r, rank)` (declared in
`hyper-graph.h`): the span of that rank in cell `(l, r)`, `NULL` when the
chart has no such cell or the cell no such rank. -/
def GetTrgSpan (hg : HyperGraph α) (l r rank : Int) : Option Nat :=
  if GetTrgSpanID l r < 0 ∨ rank < 0 then none
  else
    match hg.stacks_.get? (GetTrgSpanID l r).toNat with
    | some (some stack) => stack.get? rank.toNat
    | _ => none

/-- The entry `top()` of the queue: a greatest one under `operator<`. -/
def HypothesisQueue.top (tie : Hypothesis α → Hypothesis α → Bool) :
    HypothesisQueue α → Option (Hypothesis α)
  | [] => none
  | h :: q =>
    match HypothesisQueue.top tie q with
    | none => some h
    | some m => if Hypothesis.less tie m h then some h else some m

/-- The call `pop()`: the queue without (one copy of) its top. -/
def HypothesisQueue.pop (tie : Hypothesis α → Hypothesis α → Bool) (q : HypothesisQueue α) :
    HypothesisQueue α :=
  match HypothesisQueue.top tie q with
  | none => q
  | some t => q.erase t

/-- The call `push(hyp)`. -/
def HypothesisQueue.push (q : HypothesisQueue α) (hyp : Hypothesis α) : HypothesisQueue α :=
  hyp :: q

/-- The loop `while(q.size() && q.top() == hyp) q.pop();` (at most `fuel` rounds). -/
def popEqual (tie : Hypothesis α → Hypothesis α → Bool) (hyp : Hypothesis α) :
    Nat → HypothesisQueue α → HypothesisQueue α
  | 0, q => q
  | fuel + 1, q =>
    match HypothesisQueue.top tie q with
    | none => q
    | some t => if t = hyp then popEqual tie hyp fuel (HypothesisQueue.pop tie q) else q

/-- The order of the keys of the map `spans`: pairs of integers, lexicographically. -/
def keyLess (a b : Int × Int) : Bool :=
  decide (a.1 < b.1) || (decide (a.1 = b.1) && decide (a.2 < b.2))

/-- Lines 153-164 of `ProcessOneSpan`: find the span keyed by the target span
of `hyp` in the map, create it when it is not there, and add `hyp` to it. -/
def addToSpans (hyp : Hypothesis α) : List (TargetSpan α) → List (TargetSpan α)
  | [] => [TargetSpan.AddHypothesis ⟨hyp.left, hyp.right, hyp.trg_left, hyp.trg_right, []⟩ hyp]
  | t :: ts =>
    if (t.trg_left, t.trg_right) = (hyp.trg_left, hyp.trg_right) then
      TargetSpan.AddHypothesis t hyp :: ts
    else if keyLess (hyp.trg_left, hyp.trg_right) (t.trg_left, t.trg_right) then
      TargetSpan.AddHypothesis ⟨hyp.left, hyp.right, hyp.trg_left, hyp.trg_right, []⟩ hyp :: t :: ts
    else t :: addToSpans hyp ts

/-- Lines 176-185 of `ProcessOneSpan`: the copy of `hyp` with the left child
replaced by the span `new_left_trg` at address `np`. -/
def leftNeighbour (hyp : Hypothesis α) (np : Nat) (new_left_trg old_left_trg : TargetSpan α) :
    Hypothesis α :=
  if hyp.type = HyperEdgeType.EDGE_STR then
    { hyp with
      score := subScore hyp.score old_left_trg.GetScore + new_left_trg.GetScore
      left_rank := hyp.left_rank + 1
      left_child := some np
      trg_left := new_left_trg.trg_left }
  else
    { hyp with
      score := subScore hyp.score old_left_trg.GetScore + new_left_trg.GetScore
      left_rank := hyp.left_rank + 1
      left_child := some np
      trg_right := new_left_trg.trg_right }

/-- Lines 192-201 of `ProcessOneSpan`: the copy of `hyp` with the right child
replaced by the span `new_right_trg` at address `np`. -/
def rightNeighbour (hyp : Hypothesis α) (np : Nat) (new_right_trg old_right_trg : TargetSpan α) :
    Hypothesis α :=
  if hyp.type = HyperEdgeType.EDGE_STR then
    { hyp with
      score := subScore hyp.score old_right_trg.GetScore + new_right_trg.GetScore
      right_rank := hyp.right_rank + 1
      right_child := some np
      trg_right := new_right_trg.trg_right }
  else
    { hyp with
      score := subScore hyp.score old_right_trg.GetScore + new_right_trg.GetScore
      right_rank := hyp.right_rank + 1
      right_child := some np
      trg_left := new_right_trg.trg_left }

/-- Lines 173-187 of `ProcessOneSpan`: push the neighbour with the next left rank, if there is one. -/
def expandLeft (hg : HyperGraph α) (l : Int) (hyp : Hypothesis α) (q : HypothesisQueue α) :
    Except Fault (HypothesisQueue α) :=
  match GetTrgSpan hg l (hyp.center - 1) (hyp.left_rank + 1) with
  | none => .ok q
  | some np =>
    match GetTrgSpan hg l (hyp.center - 1) hyp.left_rank with
    | none => .error Fault.nullPointer
    | some op =>
      match hg.heap.get? np, hg.heap.get? op with
      | some new_left_trg, some old_left_trg =>
        .ok (HypothesisQueue.push q (leftNeighbour hyp np new_left_trg old_left_trg))
      | _, _ => .error Fault.nullPointer

/-- Lines 188-203 of `ProcessOneSpan`: push the neighbour with the next right rank, if there is one. -/
def expandRight (hg : HyperGraph α) (r : Int) (hyp : Hypothesis α) (q : HypothesisQueue α) :
    Except Fault (HypothesisQueue α) :=
  match GetTrgSpan hg hyp.center r (hyp.right_rank + 1) with
  | none => .ok q
  | some np =>
    match GetTrgSpan hg hyp.center r hyp.right_rank with
    | none => .error Fault.nullPointer
    | some op =>
      match hg.heap.get? np, hg.heap.get? op with
      | some new_right_trg, some old_right_trg =>
        .ok (HypothesisQueue.push q (rightNeighbour hyp np new_right_trg old_right_trg))
      | _, _ => .error Fault.nullPointer

/-- The body of the beam search loop of `ProcessOneSpan` (lines 151-203). -/
def beamStep (tie : Hypothesis α → Hypothesis α → Bool) (hg : HyperGraph α) (l r : Int)
    (st : BeamState α) : Except Fault (BeamState α) :=
  match HypothesisQueue.top tie st.q with
  | none => .error Fault.outOfBounds
  | some hyp =>
    let q1 := HypothesisQueue.pop tie st.q
    let spans := addToSpans hyp st.spans
    let q2 := popEqual tie hyp q1.length q1
    if hyp.center = -1 then .ok ⟨q2, spans, st.num_processed + 1⟩
    else
      match expandLeft hg l hyp q2 with
      | .error e => .error e
      | .ok q3 =>
        match expandRight hg r hyp q3 with
        | .error e => .error e
        | .ok q4 => .ok ⟨q4, spans, st.num_processed + 1⟩

/-- The loop `while((!beam_size || num_processed < beam_size) && q.size())`, on fuel. -/
def beamLoop (tie : Hypothesis α → Hypothesis α → Bool) (hg : HyperGraph α) (l r : Int)
    (beam_size : Int) : Nat → BeamState α → Except Fault (BeamState α)
  | 0, st =>
    if (beam_size = 0 ∨ (st.num_processed : Int) < beam_size) ∧ st.q ≠ [] then
      .error Fault.nonTermination
    else .ok st
  | fuel + 1, st =>
    if (beam_size = 0 ∨ (st.num_processed : Int) < beam_size) ∧ st.q ≠ [] then
      match beamStep tie hg l r st with
      | .error e => .error e
      | .ok st1 => beamLoop tie hg l r beam_size fuel st1
    else .ok st

/-- The number of spans of cell `(l, r)`, zero when the chart has no such cell. -/
def stackSize (hg : HyperGraph α) (l r : Int) : Nat :=
  if GetTrgSpanID l r < 0 then 0
  else
    match hg.stacks_.get? (GetTrgSpanID l r).toNat with
    | some (some stack) => stack.length
    | _ => 0

/-- The weight of a queue entry in the fuel of the beam search: three to the
number of rank increments that are still possible from it. -/
def hypWeight (hg : HyperGraph α) (l r : Int) (h : Hypothesis α) : Nat :=
  3 ^ ((stackSize hg l (h.center - 1) - (h.left_rank + 1).toNat)
      + (stackSize hg h.center r - (h.right_rank + 1).toNat))

/-- The fuel given to the beam search started from queue `q`. -/
def beamFuel (hg : HyperGraph α) (l r : Int) (q : HypothesisQueue α) : Nat :=
  (q.map (hypWeight hg l r)).sum

/-- Lines 112-121 of `ProcessOneSpan`: the two terminal hypotheses, when the length allows them. -/
def seedTerminals (hg : HyperGraph α) (model : ReordererModel α) (features : FeatureSet σ α)
    (sent : Sentence) (l r : Int) :
    HypothesisQueue α × HyperGraph α × FeatureSet σ α :=
  if features.GetMaxTerm = 0 ∨ r - l < features.GetMaxTerm then
    let s1 := GetEdgeScore hg model features sent ⟨l, -1, r, HyperEdgeType.EDGE_FOR⟩
    let q1 := HypothesisQueue.push []
      (Hypothesis.make (s1.1 : WithBot α) l r l r HyperEdgeType.EDGE_FOR (-1) (-1) (-1) none none)
    let s2 := GetEdgeScore s1.2.1 model s1.2.2 sent ⟨l, -1, r, HyperEdgeType.EDGE_BAC⟩
    let q2 := HypothesisQueue.push q1
      (Hypothesis.make (s2.1 : WithBot α) l r r l HyperEdgeType.EDGE_BAC (-1) (-1) (-1) none none)
    (q2, s2.2.1, s2.2.2)
  else ([], hg, features)

/-- The body of the loop over the split points `c` of `ProcessOneSpan` (lines 127-143). -/
def seedSplit (model : ReordererModel α) (sent : Sentence) (l r : Int) (c : Int)
    (st : HypothesisQueue α × HyperGraph α × FeatureSet σ α) :
    Except Fault (HypothesisQueue α × HyperGraph α × FeatureSet σ α) :=
  match GetTrgSpan st.2.1 l (c - 1) 0, GetTrgSpan st.2.1 c r 0 with
  | some lp, some rp =>
    match st.2.1.heap.get? lp, st.2.1.heap.get? rp with
    | some left_trg, some right_trg =>
      let s1 := GetEdgeScore st.2.1 model st.2.2 sent ⟨l, c, r, HyperEdgeType.EDGE_STR⟩
      let q1 := HypothesisQueue.push st.1
        (Hypothesis.make (left_trg.GetScore + right_trg.GetScore + (s1.1 : WithBot α)) l r
          left_trg.trg_left right_trg.trg_right HyperEdgeType.EDGE_STR c 0 0 (some lp) (some rp))
      let s2 := GetEdgeScore s1.2.1 model s1.2.2 sent ⟨l, c, r, HyperEdgeType.EDGE_INV⟩
      let q2 := HypothesisQueue.push q1
        (Hypothesis.make (left_trg.GetScore + right_trg.GetScore + (s2.1 : WithBot α)) l r
          right_trg.trg_left left_trg.trg_right HyperEdgeType.EDGE_INV c 0 0 (some lp) (some rp))
      .ok (q2, s2.2.1, s2.2.2)
    | _, _ => .error Fault.nullPointer
  | _, _ => .error Fault.nullPointer

/-- The loop `for(int c = l+1; c <= r; c++)` of `ProcessOneSpan`, over the list of its `c`. -/
def seedSplits (model : ReordererModel α) (sent : Sentence) (l r : Int) :
    List Int → HypothesisQueue α × HyperGraph α × FeatureSet σ α →
    Except Fault (HypothesisQueue α × HyperGraph α × FeatureSet σ α)
  | [], st => .ok st
  | c :: cs, st =>
    match seedSplit model sent l r c st with
    | .error e => .error e
    | .ok st1 => seedSplits model sent l r cs st1

/-- The values `l+1, ..., r` that `c` takes. -/
def splitPoints (l r : Int) : List Int :=
  (List.range (r - l).toNat).map (fun (i : Nat) => l + 1 + (i : Int))

/-- The method `HyperGraph::ProcessOneSpan`: the spans of the new stack in rank
order, and the graph (its feature cache has grown) and feature set afterwards. -/
def ProcessOneSpan (tie : Hypothesis α → Hypothesis α → Bool) (hg : HyperGraph α)
    (model : ReordererModel α) (features : FeatureSet σ α) (sent : Sentence) (l r : Int)
    (beam_size : Int) : Except Fault (List (TargetSpan α) × HyperGraph α × FeatureSet σ α) :=
  match seedSplits model sent l r (splitPoints l r) (seedTerminals hg model features sent l r) with
  | .error e => .error e
  | .ok seeded =>
    match beamLoop tie seeded.2.1 l r beam_size (beamFuel seeded.2.1 l r seeded.1)
        ⟨seeded.1, [], 0⟩ with
    | .error e => .error e
    | .ok st => .ok (st.spans.insertionSort descSpan, seeded.2.1, seeded.2.2)

/-- Modelled from the spec: `HyperGraph::SetStack(l, r, stack)` (declared in
`hyper-graph.h`) stores the cell at its place in the triangular table, growing
the table when needed; here it also gives the new spans their addresses. -/
def SetStack (hg : HyperGraph α) (l r : Int) (spans : List (TargetSpan α)) :
    Except Fault (HyperGraph α) :=
  if l < 0 ∨ r < 0 then .error Fault.outOfBounds
  else
    .ok { hg with
      stacks_ := (hg.stacks_ ++ List.replicate ((GetTrgSpanID l r).toNat + 1 - hg.stacks_.length) none).set
        (GetTrgSpanID l r).toNat (some (List.range' hg.heap.length spans.length))
      heap := hg.heap ++ spans }

/-- Modelled from the spec: `HyperGraph::GetStack(l, r)` (declared in
`hyper-graph.h`), a checked access to the table. -/
def GetStack (hg : HyperGraph α) (l r : Int) : Except Fault SpanStack :=
  if GetTrgSpanID l r < 0 then .error Fault.outOfBounds
  else
    match hg.stacks_.get? (GetTrgSpanID l r).toNat with
    | none => .error Fault.outOfBounds
    | some none => .error Fault.nullPointer
    | some (some stack) => .ok stack

/-- The cells in the order the two loops of `BuildHyperGraph` visit them. -/
def cellOrder (n : Nat) : List (Int × Int) :=
  (List.range n).flatMap (fun (r : Nat) =>
    (List.range (r + 1)).reverse.map (fun (l : Nat) => ((l : Int), (r : Int))))

/-- The two nested loops of `BuildHyperGraph` (lines 221-227), over the list of their cells. -/
def buildCells (tie : Hypothesis α → Hypothesis α → Bool) (model : ReordererModel α)
    (sent : Sentence) (beam_size : Int) :
    List (Int × Int) → HyperGraph α × FeatureSet σ α → Except Fault (HyperGraph α × FeatureSet σ α)
  | [], st => .ok st
  | (l, r) :: cells, st =>
    match ProcessOneSpan tie st.1 model st.2 sent l r beam_size with
    | .error e => .error e
    | .ok res =>
      match SetStack res.2.1 l r res.1 with
      | .error e => .error e
      | .ok hg1 => buildCells tie model sent beam_size cells (hg1, res.2.2)

/-- The root span built from the `i`-th span of the top cell (lines 232-234). -/
def rootSpan (n : Int) (i : Nat) (p : Nat) (top_i : TargetSpan α) : TargetSpan α :=
  TargetSpan.AddHypothesis ⟨0, n - 1, top_i.trg_left, top_i.trg_right, []⟩
    (Hypothesis.make top_i.GetScore 0 (n - 1) 0 (n - 1) HyperEdgeType.EDGE_ROOT (-1) (i : Int) (-1)
      (some p) none)

/-- The loop over the top cell that builds the root spans (lines 231-236). -/
def rootSpans (heap : List (TargetSpan α)) (n : Int) : Nat → List Nat →
    Except Fault (List (TargetSpan α))
  | _, [] => .ok []
  | i, p :: ps =>
    match heap.get? p with
    | none => .error Fault.nullPointer
    | some top_i =>
      match rootSpans heap n (i + 1) ps with
      | .error e => .error e
      | .ok rest => .ok (rootSpan n i p top_i :: rest)

/-- The method `HyperGraph::BuildHyperGraph`. -/
def BuildHyperGraph (tie : Hypothesis α → Hypothesis α → Bool) (hg : HyperGraph α)
    (model : ReordererModel α) (features : FeatureSet σ α) (sent : Sentence) (beam_size : Int) :
    Except Fault (HyperGraph α × FeatureSet σ α) :=
  match sent with
  | [] => .error Fault.outOfBounds
  | s0 :: _ =>
    match buildCells tie model sent beam_size (cellOrder s0.words.length) (hg, features) with
    | .error e => .error e
    | .ok built =>
      match GetStack built.1 0 (s0.GetNumWords - 1) with
      | .error e => .error e
      | .ok top =>
        match rootSpans built.1.heap s0.GetNumWords 0 top with
        | .error e => .error e
        | .ok roots =>
          .ok ({ built.1 with
                  stacks_ := built.1.stacks_ ++ [some (List.range' built.1.heap.length roots.length)]
                  heap := built.1.heap ++ roots }, built.2)

/-- The assignment `hyp->SetScore(score)` for the `i`-th hypothesis of the span at `p`. -/
def setHypScore (heap : List (TargetSpan α)) (p i : Nat) (score : WithBot α) :
    List (TargetSpan α) :=
  match heap.get? p with
  | none => heap
  | some span =>
    match span.hyps.get? i with
    | none => heap
    | some hyp => heap.set p { span with hyps := span.hyps.set i { hyp with score := score } }

/-- Lines 58-65 of `Score`: add the model score of the edge of a non-root hypothesis. -/
def addEdgeScore (hg : HyperGraph α) (model : ReordererModel α) (hyp : Hypothesis α)
    (score : WithBot α) : Except Fault (WithBot α) :=
  if hyp.type ≠ HyperEdgeType.EDGE_ROOT then
    match findFeatures hg.features_ ⟨hyp.left, hyp.center, hyp.right, hyp.type⟩ with
    | none => .error Fault.noFeatures
    | some fit => .ok (score + (model.ScoreFeatureVector fit : WithBot α))
  else .ok score

/-- Lines 66-69 of `Score`: `if(child) score += Score(model, loss_multiplier, child);`
where `scoreSpan` is the scoring of spans. -/
def addChildScore (scoreSpan : HyperGraph α → Nat → Except Fault (WithBot α × HyperGraph α))
    (child : Option Nat) (acc : WithBot α × HyperGraph α) :
    Except Fault (WithBot α × HyperGraph α) :=
  match child with
  | none => .ok acc
  | some c =>
    match scoreSpan acc.2 c with
    | .error e => .error e
    | .ok res => .ok (acc.1 + res.1, res.2)

/-- The method `HyperGraph::Score` on the `i`-th hypothesis of the span at `p`
(lines 50-73), given the scoring of spans. -/
def scoreHyp (scoreSpan : HyperGraph α → Nat → Except Fault (WithBot α × HyperGraph α))
    (model : ReordererModel α) (loss_multiplier : α) (hg : HyperGraph α) (p i : Nat) :
    Except Fault (WithBot α × HyperGraph α) :=
  match hg.heap.get? p with
  | none => .error Fault.nullPointer
  | some span =>
    match span.hyps.get? i with
    | none => .error Fault.outOfBounds
    | some hyp =>
      if hyp.score = ⊥ then
        match addEdgeScore hg model hyp ((hyp.loss * loss_multiplier : α) : WithBot α) with
        | .error e => .error e
        | .ok score1 =>
          match addChildScore scoreSpan hyp.left_child (score1, hg) with
          | .error e => .error e
          | .ok res1 =>
            match addChildScore scoreSpan hyp.right_child res1 with
            | .error e => .error e
            | .ok res2 => .ok (res2.1, { res2.2 with heap := setHypScore res2.2.heap p i res2.1 })
      else .ok (hyp.score, hg)

/-- The loop `BOOST_FOREACH(Hypothesis *hyp, hyps) max_score = max(max_score, Score(hyp))`
of `Score` (lines 42-43), over the positions of the hypotheses. -/
def scoreHyps (scoreSpan : HyperGraph α → Nat → Except Fault (WithBot α × HyperGraph α))
    (model : ReordererModel α) (loss_multiplier : α) (p : Nat) :
    List Nat → WithBot α × HyperGraph α → Except Fault (WithBot α × HyperGraph α)
  | [], acc => .ok acc
  | i :: is, acc =>
    match scoreHyp scoreSpan model loss_multiplier acc.2 p i with
    | .error e => .error e
    | .ok res => scoreHyps scoreSpan model loss_multiplier p is (max acc.1 res.1, res.2)

/-- The sort of the hypotheses of the span at `p` (line 44). -/
def sortHyps (heap : List (TargetSpan α)) (p : Nat) : List (TargetSpan α) :=
  match heap.get? p with
  | none => heap
  | some span => heap.set p { span with hyps := span.hyps.insertionSort descHyp }

/-- The method `HyperGraph::Score` on the span at `p` (lines 36-47), on fuel for the depth of the recursion. -/
def scoreSpan (model : ReordererModel α) (loss_multiplier : α) :
    Nat → HyperGraph α → Nat → Except Fault (WithBot α × HyperGraph α)
  | 0, _, _ => .error Fault.nonTermination
  | fuel + 1, hg, p =>
    match hg.heap.get? p with
    | none => .error Fault.nullPointer
    | some span =>
      if span.GetScore = ⊥ then
        match scoreHyps (scoreSpan model loss_multiplier fuel) model loss_multiplier p
            (List.range span.hyps.length) (span.GetScore, hg) with
        | .error e => .error e
        | .ok res => .ok (res.1, { res.2 with heap := sortHyps res.2.heap p })
      else .ok (span.GetScore, hg)

/-- The score of the span at `p`, the sentinel when there is none. -/
def scoreAt (heap : List (TargetSpan α)) (p : Nat) : WithBot α :=
  match heap.get? p with
  | none => ⊥
  | some t => t.GetScore

/-- The comparison `DescendingScore<TargetSpan>` on addresses. -/
def descAt (heap : List (TargetSpan α)) (a b : Nat) : Prop := scoreAt heap b ≤ scoreAt heap a

instance descAtDecidable (heap : List (TargetSpan α)) : DecidableRel (descAt heap) :=
  fun a b => inferInstanceAs (Decidable (scoreAt heap b ≤ scoreAt heap a))

/-- The method `HyperGraph::AccumulateLoss` (lines 241-247), on fuel for the depth of the recursion. -/
def accumulateLoss (heap : List (TargetSpan α)) : Nat → Nat → Except Fault α
  | 0, _ => .error Fault.nonTermination
  | fuel + 1, span =>
    match heap.get? span with
    | none => .error Fault.nullPointer
    | some t =>
      match t.hyps with
      | [] => .error Fault.outOfBounds
      | hyp :: _ =>
        match (match hyp.left_child with
               | none => Except.ok hyp.loss
               | some lc =>
                 match accumulateLoss heap fuel lc with
                 | .error e => .error e
                 | .ok v => .ok (hyp.loss + v)) with
        | .error e => .error e
        | .ok score =>
          match hyp.right_child with
          | none => .ok score
          | some rc =>
            match accumulateLoss heap fuel rc with
            | .error e => .error e
            | .ok v => .ok (score + v)

/-- The method `HyperGraph::AccumulateLoss(span)`. -/
def AccumulateLoss (hg : HyperGraph α) (span : Nat) : Except Fault α :=
  accumulateLoss hg.heap (hg.heap.length + 1) span

/-- The statement `feat_map[id] += w` on a `std::map<int,double>`, kept as its
pairs in ascending order of the key. -/
def featMapAdd (id : Int) (w : α) : List (Int × α) → List (Int × α)
  | [] => [(id, 0 + w)]
  | (k, v) :: m =>
    if id = k then (k, v + w) :: m
    else if id < k then (id, 0 + w) :: (k, v) :: m
    else (k, v) :: featMapAdd id w m

/-- The loop `BOOST_FOREACH(FeaturePairInt feat_pair, *(fit->second)) feat_map[..] += ..` (lines 270-271). -/
def featMapAddAll (vec : FeatureVectorInt α) (feat_map : List (Int × α)) : List (Int × α) :=
  vec.foldl (fun m feat_pair => featMapAdd feat_pair.1 feat_pair.2 m) feat_map

/-- The method `HyperGraph::AccumulateFeatures(span, feat_map)` (lines 258-275), on fuel. -/
def accumulateFeatures (hg : HyperGraph α) : Nat → Nat → List (Int × α) →
    Except Fault (List (Int × α))
  | 0, _, _ => .error Fault.nonTermination
  | fuel + 1, span, feat_map =>
    match hg.heap.get? span with
    | none => .error Fault.nullPointer
    | some t =>
      match t.hyps with
      | [] => .error Fault.outOfBounds
      | hyp :: _ =>
        match (if hyp.type ≠ HyperEdgeType.EDGE_ROOT then
                match findFeatures hg.features_ ⟨hyp.left, hyp.center, hyp.right, hyp.type⟩ with
                | none => Except.error Fault.noFeatures
                | some fit => Except.ok (featMapAddAll fit feat_map)
              else Except.ok feat_map) with
        | .error e => .error e
        | .ok m1 =>
          match (match hyp.left_child with
                 | none => Except.ok m1
                 | some lc => accumulateFeatures hg fuel lc m1) with
          | .error e => .error e
          | .ok m2 =>
            match hyp.right_child with
            | none => .ok m2
            | some rc => accumulateFeatures hg fuel rc m2

/-- The method `HyperGraph::AccumulateFeatures(span)` (lines 249-256). -/
def AccumulateFeatures (hg : HyperGraph α) (span : Nat) : Except Fault (FeatureVectorInt α) :=
  accumulateFeatures hg (hg.heap.length + 1) span []

/-- A string-indexed feature vector `FeatureVectorString`: pairs of feature name and weight. -/
abbrev FeatureVectorString (α : Type) := List (String × α)

/-- The collaborator `FeatureBase` (declared in `feature-base.h`), a feature
generator, used through its two calls; `ν` stands for the type `HyperNode`. -/
structure FeatureBase (ν α : Type) where
  GenerateNodeFeatures : FeatureDataBase → ν → FeatureVectorString α
  GenerateEdgeFeatures : FeatureDataBase → ν → HyperEdge → FeatureVectorString α

/-- The data members of the class `FeatureSet` of `feature-set.h`: the
generators (a pointer may be null), the table of the feature names in the
order of their ids, and the switch that allows new names. -/
structure FeatureSetData (ν α : Type) where
  feature_gens_ : List (Option (FeatureBase ν α))
  feature_ids_ : List String
  add_ : Bool

/-- Modelled from the spec: `SymbolSet::GetId(name, add)` (declared in
`symbol-set.h`): the id of a name of the table; a new name gets the next id
and enters the table when `add` is true, and is an error when it is false. -/
def GetId (feature_ids : List String) (name : String) (add : Bool) :
    Except Fault (Int × List String) :=
  if feature_ids.indexOf name < feature_ids.length then
    .ok (((feature_ids.indexOf name : Nat) : Int), feature_ids)
  else if add then .ok (((feature_ids.length : Nat) : Int), feature_ids ++ [name])
  else .error Fault.unknownFeature

/-- The loop over `j` of `AddNodeFeatures` and `AddEdgeFeatures` (lines 37-40
and 57-60): push the pair of the id of the name and the weight. -/
def pushFeatures (add : Bool) : FeatureVectorString α → FeatureVectorInt α × List String →
    Except Fault (FeatureVectorInt α × List String)
  | [], acc => .ok acc
  | str_feat :: str_feats, acc =>
    match GetId acc.2 str_feat.1 add with
    | .error e => .error e
    | .ok got => pushFeatures add str_feats (acc.1 ++ [(got.1, str_feat.2)], got.2)

/-- The loop over `i` of `AddNodeFeatures` and `AddEdgeFeatures` (lines 34-41
and 54-61): generator `i` is run on factor `i` of the sentence; `generate` is
the call made on it. -/
def genFeatures {ν : Type} (generate : FeatureBase ν α → FeatureDataBase → FeatureVectorString α)
    (add : Bool) : List FeatureDataBase → List (Option (FeatureBase ν α)) →
    FeatureVectorInt α × List String → Except Fault (FeatureVectorInt α × List String)
  | [], _, acc => .ok acc
  | _ :: _, [], _ => .error Fault.outOfBounds
  | _ :: _, none :: _, _ => .error Fault.nullPointer
  | s :: sent, some gen :: gens, acc =>
    match pushFeatures add (generate gen s) acc with
    | .error e => .error e
    | .ok acc1 => genFeatures generate add sent gens acc1

/-- The order `operator<` of `std::pair<int,double>` that `sort` uses. -/
def pairLe (a b : Int × α) : Prop := a.1 < b.1 ∨ (a.1 = b.1 ∧ a.2 ≤ b.2)

instance pairLeDecidable : DecidableRel (pairLe : Int × α → Int × α → Prop) :=
  fun a b => inferInstanceAs (Decidable (a.1 < b.1 ∨ (a.1 = b.1 ∧ a.2 ≤ b.2)))

/-- The method `FeatureSet::AddNodeFeatures` (lines 28-44): the feature set
afterwards and the vector given to `node.SetFeatureVector`, `none` when the
method returns at line 31. -/
def AddNodeFeatures {ν : Type} (IsRoot : ν → Bool) (fs : FeatureSetData ν α)
    (sent : List FeatureDataBase) (node : ν) :
    Except Fault (FeatureSetData ν α × Option (FeatureVectorInt α)) :=
  if IsRoot node then .ok (fs, none)
  else
    match genFeatures (fun gen s => gen.GenerateNodeFeatures s node) fs.add_ sent
        fs.feature_gens_ ([], fs.feature_ids_) with
    | .error e => .error e
    | .ok res => .ok ({ fs with feature_ids_ := res.2 }, some (res.1.insertionSort pairLe))

/-- The method `FeatureSet::AddEdgeFeatures` (lines 47-64): the feature set
afterwards and the vector given to `edge.SetFeatureVector`, `none` when the
method returns at line 51. -/
def AddEdgeFeatures {ν : Type} (IsRoot : ν → Bool) (fs : FeatureSetData ν α)
    (sent : List FeatureDataBase) (node : ν) (edge : HyperEdge) :
    Except Fault (FeatureSetData ν α × Option (FeatureVectorInt α)) :=
  if IsRoot node then .ok (fs, none)
  else
    match genFeatures (fun gen s => gen.GenerateEdgeFeatures s node edge) fs.add_ sent
        fs.feature_gens_ ([], fs.feature_ids_) with
    | .error e => .error e
    | .ok res => .ok ({ fs with feature_ids_ := res.2 }, some (res.1.insertionSort pairLe))

end Code

/-! ## Notions used to state the properties -/

section Notions

variable {α : Type} [LinearOrderedCommRing α] {σ : Type}

instance descHypTotal : IsTotal (Hypothesis α) descHyp := ⟨fun a b => le_total b.score a.score⟩

instance descHypTrans : IsTrans (Hypothesis α) descHyp :=
  ⟨fun _ _ _ hab hbc => le_trans hbc hab⟩

instance descSpanTotal : IsTotal (TargetSpan α) descSpan :=
  ⟨fun a b => le_total b.GetScore a.GetScore⟩

instance descSpanTrans : IsTrans (TargetSpan α) descSpan :=
  ⟨fun _ _ _ hab hbc => le_trans hbc hab⟩

instance descAtTotal (heap : List (TargetSpan α)) : IsTotal Nat (descAt heap) :=
  ⟨fun a b => le_total (scoreAt heap b) (scoreAt heap a)⟩

instance descAtTrans (heap : List (TargetSpan α)) : IsTrans Nat (descAt heap) :=
  ⟨fun _ _ _ hab hbc => le_trans hbc hab⟩

/-- The loop condition `(!beam_size || num_processed < beam_size) && q.size()`. -/
def beamCond (beam_size : Int) (st : BeamState α) : Prop :=
  (beam_size = 0 ∨ (st.num_processed : Int) < beam_size) ∧ st.q ≠ []

/-- The hypothesis `h1` is the neighbour that `expandLeft` pushes for `hyp`. -/
def LeftNb (hg : HyperGraph α) (l : Int) (hyp h1 : Hypothesis α) : Prop :=
  ∃ np op nt ot, GetTrgSpan hg l (hyp.center - 1) (hyp.left_rank + 1) = some np ∧
    GetTrgSpan hg l (hyp.center - 1) hyp.left_rank = some op ∧
    hg.heap.get? np = some nt ∧ hg.heap.get? op = some ot ∧ h1 = leftNeighbour hyp np nt ot

/-- The hypothesis `h1` is the neighbour that `expandRight` pushes for `hyp`. -/
def RightNb (hg : HyperGraph α) (r : Int) (hyp h1 : Hypothesis α) : Prop :=
  ∃ np op nt ot, GetTrgSpan hg hyp.center r (hyp.right_rank + 1) = some np ∧
    GetTrgSpan hg hyp.center r hyp.right_rank = some op ∧
    hg.heap.get? np = some nt ∧ hg.heap.get? op = some ot ∧ h1 = rightNeighbour hyp np nt ot

/-- The number of hypotheses stored in a list of spans. -/
def hypCount (spans : List (TargetSpan α)) : Nat := (spans.map (fun t => t.hyps.length)).sum

/-- The spans are well-founded: every span has a hypothesis and the children
of its hypotheses are spans at lower addresses (they were built before it). -/
def HeapWF (heap : List (TargetSpan α)) : Prop :=
  ∀ p t, heap.get? p = some t → t.hyps ≠ [] ∧
    ∀ h ∈ t.hyps, (∀ c, h.left_child = some c → c < p) ∧ (∀ c, h.right_child = some c → c < p)

/-- The rank-0 derivation rooted at the span at `p`: its rank-0 hypothesis,
then the derivation of the left child, then that of the right child (on fuel
for the depth; `none` when a span is missing or empty or the fuel is used up). -/
def bestDerivation (heap : List (TargetSpan α)) : Nat → Nat → Option (List (Hypothesis α))
  | 0, _ => none
  | fuel + 1, p =>
    match heap.get? p with
    | none => none
    | some t =>
      match t.hyps with
      | [] => none
      | hyp :: _ =>
        match (match hyp.left_child with
               | none => some []
               | some lc => bestDerivation heap fuel lc),
              (match hyp.right_child with
               | none => some []
               | some rc => bestDerivation heap fuel rc) with
        | some dl, some dr => some (hyp :: (dl ++ dr))
        | _, _ => none

/-- The term that a child contributes to `AccumulateLoss`: nothing when it is
absent, else the accumulated loss of the child span. -/
def childLoss (hg : HyperGraph α) (child : Option Nat) : Except Fault α :=
  match child with
  | none => .ok 0
  | some c => AccumulateLoss hg c

/-- The edge `HyperEdge(l, c, r, t)` of a hypothesis. -/
def hypEdge (h : Hypothesis α) : HyperEdge := ⟨h.left, h.center, h.right, h.type⟩

/-- The feature pairs of a derivation: the cached vectors of its hypotheses
other than the root, one after the other (`none` when the cache lacks one). -/
def derivationPairs (hg : HyperGraph α) : List (Hypothesis α) → Option (List (Int × α))
  | [] => some []
  | h :: d =>
    match (if h.type ≠ HyperEdgeType.EDGE_ROOT then findFeatures hg.features_ (hypEdge h)
           else some []), derivationPairs hg d with
    | some v, some rest => some (v ++ rest)
    | _, _ => none

/-- The sum of the weights that a list of feature pairs gives to `id`. -/
def featWeight (id : Int) (pairs : List (Int × α)) : α :=
  ((pairs.filter (fun p => p.1 = id)).map Prod.snd).sum

/-- Two hypotheses that differ at most in their loss and in their score. -/
def SameEdge (h h0 : Hypothesis α) : Prop :=
  h.left = h0.left ∧ h.right = h0.right ∧ h.trg_left = h0.trg_left ∧
  h.trg_right = h0.trg_right ∧ h.type = h0.type ∧ h.center = h0.center ∧
  h.left_rank = h0.left_rank ∧ h.right_rank = h0.right_rank ∧
  h.left_child = h0.left_child ∧ h.right_child = h0.right_child

/-- The graph `g` is the graph `hg` up to the losses and the scores of the
hypotheses: the same cache, the same table, and at every address a span with
the same source and target span and, place by place, the same hypotheses up to
loss and score. (The losses of a chart are set after it is built.) -/
def LossVariant (hg g : HyperGraph α) : Prop :=
  g.features_ = hg.features_ ∧ g.stacks_ = hg.stacks_ ∧ g.heap.length = hg.heap.length ∧
  ∀ p t0, hg.heap.get? p = some t0 → ∃ t, g.heap.get? p = some t ∧
    t.left = t0.left ∧ t.right = t0.right ∧ t.trg_left = t0.trg_left ∧
    t.trg_right = t0.trg_right ∧ t.hyps.length = t0.hyps.length ∧
    ∀ i h0, t0.hyps.get? i = some h0 → ∃ h, t.hyps.get? i = some h ∧ SameEdge h h0

instance pairLeTotal : IsTotal (Int × α) pairLe :=
  ⟨fun a b => by
    unfold pairLe
    rcases lt_trichotomy a.1 b.1 with h | h | h
    · exact Or.inl (Or.inl h)
    · rcases le_total a.2 b.2 with h2 | h2
      · exact Or.inl (Or.inr ⟨h, h2⟩)
      · exact Or.inr (Or.inr ⟨h.symm, h2⟩)
    · exact Or.inr (Or.inl h)⟩

instance pairLeTrans : IsTrans (Int × α) pairLe :=
  ⟨fun a b c hab hbc => by
    unfold pairLe at *
    rcases hab with h1 | ⟨h1, h2⟩
    · rcases hbc with h3 | ⟨h3, -⟩
      · exact Or.inl (lt_trans h1 h3)
      · exact Or.inl (by omega)
    · rcases hbc with h3 | ⟨h3, h4⟩
      · exact Or.inl (by omega)
      · exact Or.inr ⟨by omega, le_trans h2 h4⟩⟩

/-- The id of a name in the table of the feature names: its place. -/
def idOf (feature_ids : List String) (name : String) : Int :=
  ((feature_ids.indexOf name : Nat) : Int)

/-- What the generators make for a sentence, one factor after the other;
`generate` is the call made on a generator. -/
def generatedFeatures {ν : Type}
    (generate : FeatureBase ν α → FeatureDataBase → FeatureVectorString α) :
    List FeatureDataBase → List (Option (FeatureBase ν α)) → FeatureVectorString α
  | s :: sent, some gen :: gens => generate gen s ++ generatedFeatures generate sent gens
  | _, _ => []

/-- What `AddNodeFeatures` and `AddEdgeFeatures` store for the generated
features `gen`, with the table `ids0` before and `ids1` after: a vector in
the order of `sort`, so with ids that never descend, that holds for every
generated feature, as often as it was generated, the pair of the id of its
name in the table and its weight; the table has only grown. -/
def StoredOK (ids0 : List String) (gen : FeatureVectorString α) (ids1 : List String)
    (stored : Option (FeatureVectorInt α)) : Prop :=
  ∃ feats ext, stored = some feats ∧ feats.Sorted pairLe ∧
    (feats.map Prod.fst).Sorted (· ≤ ·) ∧
    feats.Perm (gen.map (fun p => (idOf ids1 p.1, p.2))) ∧
    (∀ p ∈ gen, p.1 ∈ ids1) ∧ ids1 = ids0 ++ ext

end Notions

/-! ## Concrete inputs -/

section Concrete

/-- Modelled from the spec: the values of the tags of `HyperEdge::Type`
(declared in `hyper-edge.h`), the characters F, S, B, I and R. -/
def HyperEdgeType.code : HyperEdgeType → Int
  | .EDGE_FOR => 70
  | .EDGE_STR => 83
  | .EDGE_BAC => 66
  | .EDGE_INV => 73
  | .EDGE_ROOT => 82

/-- A tie-break for `Hypothesis::operator<`: the identity fields compared one
after the other, in the order in which the constructor takes them. -/
def lexTie (a b : Hypothesis Int) : Bool :=
  decide (a.left < b.left) || (decide (a.left = b.left) &&
  (decide (a.right < b.right) || (decide (a.right = b.right) &&
  (decide (a.trg_left < b.trg_left) || (decide (a.trg_left = b.trg_left) &&
  (decide (a.trg_right < b.trg_right) || (decide (a.trg_right = b.trg_right) &&
  (decide (a.type.code < b.type.code) || (decide (a.type = b.type) &&
  (decide (a.center < b.center) || (decide (a.center = b.center) &&
  (decide (a.left_rank < b.left_rank) || (decide (a.left_rank = b.left_rank) &&
   decide (a.right_rank < b.right_rank))))))))))))))

/-- A model that scores a vector by the sum of its weights. -/
def sumModel : ReordererModel Int := ⟨fun v => (v.map Prod.snd).sum⟩

/-- A feature set without state and without a limit on terminals: the one
feature of an edge is the code of its type, with weight one on straight edges
and zero on the others. -/
def typeFeatures : FeatureSet Unit Int :=
  ⟨(), fun _ _ e => ([(e.type.code, if e.type = HyperEdgeType.EDGE_STR then 1 else 0)], ()), 0⟩

/-- A feature set that gives every edge the empty vector. -/
def noFeatures : FeatureSet Unit Int := ⟨(), fun _ _ _ => ([], ()), 0⟩

/-- The graph before anything is built. -/
def emptyGraph : HyperGraph Int := ⟨[], [], []⟩

/-- The sentence A B C. -/
def sentABC : Sentence := [⟨["A", "B", "C"]⟩]

/-- A hypothesis that has only a type, a loss and children. -/
def lossHyp (type : HyperEdgeType) (loss : ℚ) (left_child right_child : Option Nat) :
    Hypothesis ℚ :=
  { score := ⊥, loss := loss, left := 0, right := 0, trg_left := 0, trg_right := 0,
    type := type, center := -1, left_rank := -1, right_rank := -1,
    left_child := left_child, right_child := right_child }

/-- A two-level tree under a root: the edge at the top has loss 1/2, the edges
below it have losses 3/10 and 1/5, the root has loss 0. -/
def lossTree : HyperGraph ℚ :=
  { features_ := []
    stacks_ := [some [0], some [1], some [2], some [3]]
    heap := [⟨0, 0, 0, 0, [lossHyp HyperEdgeType.EDGE_FOR (3 / 10) none none]⟩,
             ⟨1, 1, 1, 1, [lossHyp HyperEdgeType.EDGE_FOR (1 / 5) none none]⟩,
             ⟨0, 1, 0, 1, [lossHyp HyperEdgeType.EDGE_STR (1 / 2) (some 0) (some 1)]⟩,
             ⟨0, 1, 0, 1, [lossHyp HyperEdgeType.EDGE_ROOT 0 (some 2) none]⟩] }

/-- The value of a run that went well, `d` for one that did not. -/
def okOr {ε β : Type} (x : Except ε β) (d : β) : β :=
  match x with
  | .ok b => b
  | .error _ => d

/-- The graph after `BuildHyperGraph` on `sent` with the model `sumModel` and the
features `typeFeatures`, started from the empty graph. -/
def builtGraph (sent : Sentence) (beam_size : Int) : HyperGraph Int :=
  (okOr (BuildHyperGraph lexTie emptyGraph sumModel typeFeatures sent beam_size)
    (emptyGraph, typeFeatures)).1

/-- A generator that gives every node and every edge the feature `f` twice. -/
def twiceGen : FeatureBase Bool Int :=
  ⟨fun _ _ => [("f", 1), ("f", 2)], fun _ _ _ => [("f", 1), ("f", 2)]⟩

/-- A generator that gives every node and every edge the features `b` and `a`. -/
def twoGen : FeatureBase Bool Int :=
  ⟨fun _ _ => [("b", 5), ("a", 7)], fun _ _ _ => [("b", 5), ("a", 7)]⟩

/-- A feature set with the generators `gens`, an empty table, new names allowed. -/
def freshSet (gens : List (FeatureBase Bool Int)) : FeatureSetData Bool Int :=
  ⟨gens.map some, [], true⟩

end Concrete


/-! ## Properties -/

section Proofs

variable {α : Type} [LinearOrderedCommRing α] {σ : Type}

/-! ### The feature cache -/

theorem findFeatures_append_self (m : List (HyperEdge × FeatureVectorInt α)) (edge : HyperEdge)
    (v : FeatureVectorInt α) (h : findFeatures m edge = none) :
    findFeatures (m ++ [(edge, v)]) edge = some v := by
  induction m with
  | nil => simp [findFeatures]
  | cons x m ih =>
    obtain ⟨e, w⟩ := x
    simp only [findFeatures, List.cons_append] at h ⊢
    split_ifs at h ⊢ with he
    exact ih h

theorem findFeatures_append_ne (m : List (HyperEdge × FeatureVectorInt α)) (e edge : HyperEdge)
    (v : FeatureVectorInt α) (h : edge ≠ e) :
    findFeatures (m ++ [(edge, v)]) e = findFeatures m e := by
  induction m with
  | nil => simp [findFeatures, h]
  | cons y m ih =>
    obtain ⟨e1, w1⟩ := y
    simp only [findFeatures, List.cons_append]
    split_ifs with he
    · rfl
    · exact ih

/-! ### The queue -/

theorem top_mem (tie : Hypothesis α → Hypothesis α → Bool) :
    ∀ (q : HypothesisQueue α) (m : Hypothesis α), HypothesisQueue.top tie q = some m → m ∈ q
  | [], m, h => by simp [HypothesisQueue.top] at h
  | x :: q, m, h => by
    simp only [HypothesisQueue.top] at h
    cases hq : HypothesisQueue.top tie q with
    | none =>
      rw [hq] at h
      simp only [Option.some.injEq] at h
      subst h
      exact List.mem_cons_self _ _
    | some m1 =>
      rw [hq] at h
      simp only at h
      split_ifs at h
      · simp only [Option.some.injEq] at h
        subst h
        exact List.mem_cons_self _ _
      · simp only [Option.some.injEq] at h
        subst h
        exact List.mem_cons_of_mem _ (top_mem tie q m1 hq)

theorem pop_sublist (tie : Hypothesis α → Hypothesis α → Bool) (q : HypothesisQueue α) :
    List.Sublist (HypothesisQueue.pop tie q) q := by
  unfold HypothesisQueue.pop
  cases HypothesisQueue.top tie q with
  | none => exact List.Sublist.refl _
  | some t => exact List.erase_sublist _ _

theorem popEqual_sublist (tie : Hypothesis α → Hypothesis α → Bool) (hyp : Hypothesis α) :
    ∀ (fuel : Nat) (q : HypothesisQueue α), List.Sublist (popEqual tie hyp fuel q) q
  | 0, q => by simp [popEqual]
  | fuel + 1, q => by
    simp only [popEqual]
    cases HypothesisQueue.top tie q with
    | none => exact List.Sublist.refl _
    | some t =>
      simp only
      split_ifs
      · exact (popEqual_sublist tie hyp fuel _).trans (pop_sublist tie q)
      · exact List.Sublist.refl _

/-! ### The beam search loop -/

theorem expandLeft_ok (hg : HyperGraph α) (l : Int) (hyp : Hypothesis α)
    (q q1 : HypothesisQueue α) (h : expandLeft hg l hyp q = .ok q1) :
    q1 = q ∨ ∃ h1, LeftNb hg l hyp h1 ∧ q1 = h1 :: q := by
  unfold expandLeft at h
  split at h
  · left
    cases h
    rfl
  · rename_i np hnp
    split at h
    · cases h
    · rename_i op hop
      split at h
      · rename_i nt ot hnt hot
        right
        cases h
        exact ⟨_, ⟨np, op, nt, ot, hnp, hop, hnt, hot, rfl⟩, rfl⟩
      · cases h

theorem expandRight_ok (hg : HyperGraph α) (r : Int) (hyp : Hypothesis α)
    (q q1 : HypothesisQueue α) (h : expandRight hg r hyp q = .ok q1) :
    q1 = q ∨ ∃ h1, RightNb hg r hyp h1 ∧ q1 = h1 :: q := by
  unfold expandRight at h
  split at h
  · left
    cases h
    rfl
  · rename_i np hnp
    split at h
    · cases h
    · rename_i op hop
      split at h
      · rename_i nt ot hnt hot
        right
        cases h
        exact ⟨_, ⟨np, op, nt, ot, hnp, hop, hnt, hot, rfl⟩, rfl⟩
      · cases h

/-- What one round of the beam search does to the state. -/
theorem beamStep_ok (tie : Hypothesis α → Hypothesis α → Bool) (hg : HyperGraph α) (l r : Int)
    (st st1 : BeamState α) (h : beamStep tie hg l r st = .ok st1) :
    ∃ hyp q2 ql qr, HypothesisQueue.top tie st.q = some hyp ∧
      List.Sublist q2 (st.q.erase hyp) ∧
      st1.spans = addToSpans hyp st.spans ∧
      st1.num_processed = st.num_processed + 1 ∧
      st1.q = qr ++ (ql ++ q2) ∧
      (∀ h1 ∈ ql, LeftNb hg l hyp h1) ∧ (∀ h1 ∈ qr, RightNb hg r hyp h1) ∧
      ql.length ≤ 1 ∧ qr.length ≤ 1 ∧ (hyp.center = -1 → ql = [] ∧ qr = []) := by
  unfold beamStep at h
  split at h
  · cases h
  · rename_i hyp htop
    have hpop : HypothesisQueue.pop tie st.q = st.q.erase hyp := by
      simp [HypothesisQueue.pop, htop]
    have hsub : List.Sublist
        (popEqual tie hyp (HypothesisQueue.pop tie st.q).length (HypothesisQueue.pop tie st.q))
        (st.q.erase hyp) := by
      have := popEqual_sublist tie hyp (HypothesisQueue.pop tie st.q).length
        (HypothesisQueue.pop tie st.q)
      rwa [hpop] at this ⊢
    simp only at h
    split_ifs at h with hc
    · cases h
      exact ⟨hyp, _, [], [], htop, hsub, rfl, rfl, rfl, by simp, by simp, by simp, by simp,
        fun _ => ⟨rfl, rfl⟩⟩
    · split at h
      · cases h
      · rename_i q3 hq3
        split at h
        · cases h
        · rename_i q4 hq4
          cases h
          rcases expandLeft_ok hg l hyp _ _ hq3 with h3 | ⟨h1, hn1, h3⟩ <;>
            rcases expandRight_ok hg r hyp _ _ hq4 with h4 | ⟨h2, hn2, h4⟩
          · exact ⟨hyp, _, [], [], htop, hsub, rfl, rfl, by simp [h3, h4], by simp, by simp,
              by simp, by simp, fun hc1 => absurd hc1 hc⟩
          · exact ⟨hyp, _, [], [h2], htop, hsub, rfl, rfl, by simp [h3, h4], by simp,
              by simpa using hn2, by simp, by simp, fun hc1 => absurd hc1 hc⟩
          · exact ⟨hyp, _, [h1], [], htop, hsub, rfl, rfl, by simp [h3, h4], by simpa using hn1,
              by simp, by simp, by simp, fun hc1 => absurd hc1 hc⟩
          · exact ⟨hyp, _, [h1], [h2], htop, hsub, rfl, rfl, by simp [h3, h4],
              by simpa using hn1, by simpa using hn2, by simp, by simp,
              fun hc1 => absurd hc1 hc⟩

/-- Induction over the rounds of the beam search: a property of the state that
every round keeps holds when the loop ends, and the loop condition is then false. -/
theorem beamLoop_invariant (tie : Hypothesis α → Hypothesis α → Bool) (hg : HyperGraph α)
    (l r : Int) (beam_size : Int) (P : BeamState α → Prop)
    (hstep : ∀ st st1, P st → beamCond beam_size st → beamStep tie hg l r st = .ok st1 → P st1) :
    ∀ (fuel : Nat) (st st1 : BeamState α), P st →
      beamLoop tie hg l r beam_size fuel st = .ok st1 → P st1 ∧ ¬ beamCond beam_size st1
  | 0, st, st1, hP, h => by
    simp only [beamLoop] at h
    split_ifs at h with hc
    cases h
    exact ⟨hP, hc⟩
  | fuel + 1, st, st1, hP, h => by
    simp only [beamLoop] at h
    split_ifs at h with hc
    · split at h
      · cases h
      · rename_i st2 hst2
        exact beamLoop_invariant tie hg l r beam_size P hstep fuel st2 st1
          (hstep st st2 hP hc hst2) h
    · cases h
      exact ⟨hP, hc⟩

theorem hypWeight_pos (hg : HyperGraph α) (l r : Int) (h : Hypothesis α) :
    0 < hypWeight hg l r h := by
  unfold hypWeight
  positivity

theorem beamFuel_sublist (hg : HyperGraph α) (l r : Int) (q1 q2 : HypothesisQueue α)
    (h : List.Sublist q1 q2) : beamFuel hg l r q1 ≤ beamFuel hg l r q2 := by
  unfold beamFuel
  induction h with
  | slnil => simp
  | cons a _ ih => simp only [List.map_cons, List.sum_cons]; omega
  | cons₂ a _ ih => simp only [List.map_cons, List.sum_cons]; omega

theorem beamFuel_erase (hg : HyperGraph α) (l r : Int) (q : HypothesisQueue α)
    (hyp : Hypothesis α) (h : hyp ∈ q) :
    beamFuel hg l r (q.erase hyp) + hypWeight hg l r hyp = beamFuel hg l r q := by
  unfold beamFuel
  rw [← List.sum_map_erase (hypWeight hg l r) h]
  omega

theorem GetTrgSpan_some_lt (hg : HyperGraph α) (l r rank : Int) (p : Nat)
    (h : GetTrgSpan hg l r rank = some p) : 0 ≤ rank ∧ rank.toNat < stackSize hg l r := by
  unfold GetTrgSpan at h
  unfold stackSize
  split_ifs at h with hc
  push_neg at hc
  rw [if_neg (not_lt.2 hc.1)]
  split at h
  · rename_i stack hst
    refine ⟨hc.2, ?_⟩
    rw [List.get?_eq_some] at h
    exact h.1
  · cases h

theorem leftNb_weight (hg : HyperGraph α) (l r : Int) (hyp h1 : Hypothesis α)
    (h : LeftNb hg l hyp h1) : hypWeight hg l r h1 * 3 = hypWeight hg l r hyp := by
  obtain ⟨np, op, nt, ot, hnp, -, -, -, rfl⟩ := h
  have hlt := GetTrgSpan_some_lt hg _ _ _ _ hnp
  have hc : (leftNeighbour hyp np nt ot).center = hyp.center := by
    unfold leftNeighbour; split_ifs <;> rfl
  have hr : (leftNeighbour hyp np nt ot).right_rank = hyp.right_rank := by
    unfold leftNeighbour; split_ifs <;> rfl
  have hl : (leftNeighbour hyp np nt ot).left_rank = hyp.left_rank + 1 := by
    unfold leftNeighbour; split_ifs <;> rfl
  unfold hypWeight
  rw [hc, hr, hl, ← pow_succ]
  congr 1
  have : (hyp.left_rank + 1 + 1).toNat = (hyp.left_rank + 1).toNat + 1 := by omega
  omega

theorem rightNb_weight (hg : HyperGraph α) (l r : Int) (hyp h1 : Hypothesis α)
    (h : RightNb hg r hyp h1) : hypWeight hg l r h1 * 3 = hypWeight hg l r hyp := by
  obtain ⟨np, op, nt, ot, hnp, -, -, -, rfl⟩ := h
  have hlt := GetTrgSpan_some_lt hg _ _ _ _ hnp
  have hc : (rightNeighbour hyp np nt ot).center = hyp.center := by
    unfold rightNeighbour; split_ifs <;> rfl
  have hr : (rightNeighbour hyp np nt ot).right_rank = hyp.right_rank + 1 := by
    unfold rightNeighbour; split_ifs <;> rfl
  have hl : (rightNeighbour hyp np nt ot).left_rank = hyp.left_rank := by
    unfold rightNeighbour; split_ifs <;> rfl
  unfold hypWeight
  rw [hc, hr, hl, ← pow_succ]
  congr 1
  have : (hyp.right_rank + 1 + 1).toNat = (hyp.right_rank + 1).toNat + 1 := by omega
  omega

/-- Every round of the beam search uses up fuel. -/
theorem beamStep_fuel (tie : Hypothesis α → Hypothesis α → Bool) (hg : HyperGraph α) (l r : Int)
    (st st1 : BeamState α) (h : beamStep tie hg l r st = .ok st1) :
    beamFuel hg l r st1.q < beamFuel hg l r st.q := by
  obtain ⟨hyp, q2, ql, qr, htop, hsub, -, -, hq, hl, hr, hll, hrl, -⟩ :=
    beamStep_ok tie hg l r st st1 h
  have hmem := top_mem tie _ _ htop
  have h1 := beamFuel_erase hg l r st.q hyp hmem
  have h2 := beamFuel_sublist hg l r _ _ hsub
  have hpos := hypWeight_pos hg l r hyp
  have hql : beamFuel hg l r ql * 3 ≤ hypWeight hg l r hyp := by
    match ql, hl, hll with
    | [], _, _ => simp [beamFuel]
    | [x], hl, _ =>
      have := leftNb_weight hg l r hyp x (hl x (List.mem_singleton_self x))
      simp [beamFuel, this]
    | _ :: _ :: _, _, hll => simp at hll
  have hqr : beamFuel hg l r qr * 3 ≤ hypWeight hg l r hyp := by
    match qr, hr, hrl with
    | [], _, _ => simp [beamFuel]
    | [x], hr, _ =>
      have := rightNb_weight hg l r hyp x (hr x (List.mem_singleton_self x))
      simp [beamFuel, this]
    | _ :: _ :: _, _, hrl => simp at hrl
  have hsum : beamFuel hg l r st1.q =
      beamFuel hg l r qr + (beamFuel hg l r ql + beamFuel hg l r q2) := by
    rw [hq]
    simp [beamFuel, List.map_append, List.sum_append]
  omega

/-- The fuel `beamFuel` is enough: the loop never stops for lack of it. -/
theorem beamLoop_terminates (tie : Hypothesis α → Hypothesis α → Bool) (hg : HyperGraph α)
    (l r : Int) (beam_size : Int) :
    ∀ (fuel : Nat) (st : BeamState α), beamFuel hg l r st.q ≤ fuel →
      beamLoop tie hg l r beam_size fuel st ≠ .error Fault.nonTermination
  | 0, st, hf => by
    have hq : st.q = [] := by
      cases hq : st.q with
      | nil => rfl
      | cons x q =>
        rw [hq] at hf
        have := hypWeight_pos hg l r x
        simp [beamFuel] at hf
        omega
    simp [beamLoop, hq]
  | fuel + 1, st, hf => by
    simp only [beamLoop]
    split_ifs with hc
    · split
      · rename_i e he
        intro hcontra
        cases hcontra
        -- a round itself never reports missing fuel
        unfold beamStep at he
        split at he
        · cases he
        · simp only at he
          split_ifs at he
          split at he
          · rename_i e1 he1
            cases he
            unfold expandLeft at he1
            split at he1
            · cases he1
            · split at he1
              · cases he1
              · split at he1 <;> cases he1
          · split at he
            · rename_i e1 he1
              cases he
              unfold expandRight at he1
              split at he1
              · cases he1
              · split at he1
                · cases he1
                · split at he1 <;> cases he1
            · cases he
      · rename_i st2 hst2
        have := beamStep_fuel tie hg l r st st2 hst2
        exact beamLoop_terminates tie hg l r beam_size fuel st2 (by omega)
    · simp

/-! ### The map of spans -/

theorem hypCount_addToSpans (hyp : Hypothesis α) :
    ∀ spans : List (TargetSpan α), hypCount (addToSpans hyp spans) = hypCount spans + 1
  | [] => by simp [addToSpans, hypCount, TargetSpan.AddHypothesis]
  | t :: ts => by
    have ih := hypCount_addToSpans hyp ts
    simp only [addToSpans]
    split_ifs with h1 h2
    · simp [hypCount, TargetSpan.AddHypothesis]; omega
    · simp [hypCount, TargetSpan.AddHypothesis]; omega
    · simp only [hypCount, List.map_cons, List.sum_cons] at ih ⊢
      omega

/-! ### Taking `ProcessOneSpan` apart -/

theorem GetEdgeScore_frame (hg : HyperGraph α) (model : ReordererModel α)
    (features : FeatureSet σ α) (sent : Sentence) (edge : HyperEdge) :
    (GetEdgeScore hg model features sent edge).2.1.stacks_ = hg.stacks_ ∧
    (GetEdgeScore hg model features sent edge).2.1.heap = hg.heap ∧
    (GetEdgeScore hg model features sent edge).2.2.GetMaxTerm = features.GetMaxTerm ∧
    (GetEdgeScore hg model features sent edge).2.2.MakeEdgeFeatures = features.MakeEdgeFeatures := by
  unfold GetEdgeScore GetEdgeFeatures
  cases findFeatures hg.features_ edge <;> simp

theorem seedTerminals_frame (hg : HyperGraph α) (model : ReordererModel α)
    (features : FeatureSet σ α) (sent : Sentence) (l r : Int) :
    (seedTerminals hg model features sent l r).2.1.stacks_ = hg.stacks_ ∧
    (seedTerminals hg model features sent l r).2.1.heap = hg.heap := by
  unfold seedTerminals
  split_ifs
  · have h1 := GetEdgeScore_frame hg model features sent ⟨l, -1, r, HyperEdgeType.EDGE_FOR⟩
    have h2 := GetEdgeScore_frame (GetEdgeScore hg model features sent
      ⟨l, -1, r, HyperEdgeType.EDGE_FOR⟩).2.1 model (GetEdgeScore hg model features sent
      ⟨l, -1, r, HyperEdgeType.EDGE_FOR⟩).2.2 sent ⟨l, -1, r, HyperEdgeType.EDGE_BAC⟩
    exact ⟨h2.1.trans h1.1, h2.2.1.trans h1.2.1⟩
  · exact ⟨rfl, rfl⟩

theorem seedSplit_frame (model : ReordererModel α) (sent : Sentence) (l r c : Int)
    (st st1 : HypothesisQueue α × HyperGraph α × FeatureSet σ α)
    (h : seedSplit model sent l r c st = .ok st1) :
    st1.2.1.stacks_ = st.2.1.stacks_ ∧ st1.2.1.heap = st.2.1.heap := by
  unfold seedSplit at h
  split at h
  · split at h
    · cases h
      have h1 := GetEdgeScore_frame st.2.1 model st.2.2 sent ⟨l, c, r, HyperEdgeType.EDGE_STR⟩
      have h2 := GetEdgeScore_frame (GetEdgeScore st.2.1 model st.2.2 sent
        ⟨l, c, r, HyperEdgeType.EDGE_STR⟩).2.1 model (GetEdgeScore st.2.1 model st.2.2 sent
        ⟨l, c, r, HyperEdgeType.EDGE_STR⟩).2.2 sent ⟨l, c, r, HyperEdgeType.EDGE_INV⟩
      exact ⟨h2.1.trans h1.1, h2.2.1.trans h1.2.1⟩
    · cases h
  · cases h

theorem seedSplits_frame (model : ReordererModel α) (sent : Sentence) (l r : Int) :
    ∀ (cs : List Int) (st st1 : HypothesisQueue α × HyperGraph α × FeatureSet σ α),
      seedSplits model sent l r cs st = .ok st1 →
      st1.2.1.stacks_ = st.2.1.stacks_ ∧ st1.2.1.heap = st.2.1.heap
  | [], st, st1, h => by
    simp only [seedSplits] at h
    cases h
    exact ⟨rfl, rfl⟩
  | c :: cs, st, st1, h => by
    simp only [seedSplits] at h
    split at h
    · cases h
    · rename_i st2 hst2
      have h1 := seedSplit_frame model sent l r c st st2 hst2
      have h2 := seedSplits_frame model sent l r cs st2 st1 h
      exact ⟨h2.1.trans h1.1, h2.2.trans h1.2⟩

/-- The two phases of `ProcessOneSpan`: seeding the queue, then the beam search and the sort. -/
theorem ProcessOneSpan_ok (tie : Hypothesis α → Hypothesis α → Bool) (hg : HyperGraph α)
    (model : ReordererModel α) (features : FeatureSet σ α) (sent : Sentence) (l r : Int)
    (beam_size : Int) (res : List (TargetSpan α) × HyperGraph α × FeatureSet σ α)
    (h : ProcessOneSpan tie hg model features sent l r beam_size = .ok res) :
    ∃ seeded st,
      seedSplits model sent l r (splitPoints l r) (seedTerminals hg model features sent l r)
        = .ok seeded ∧
      beamLoop tie seeded.2.1 l r beam_size (beamFuel seeded.2.1 l r seeded.1)
        ⟨seeded.1, [], 0⟩ = .ok st ∧
      res = (st.spans.insertionSort descSpan, seeded.2.1, seeded.2.2) ∧
      seeded.2.1.stacks_ = hg.stacks_ ∧ seeded.2.1.heap = hg.heap := by
  unfold ProcessOneSpan at h
  split at h
  · cases h
  · rename_i seeded hseed
    split at h
    · cases h
    · rename_i st hst
      cases h
      have h1 := seedSplits_frame model sent l r _ _ _ hseed
      have h2 := seedTerminals_frame hg model features sent l r
      exact ⟨seeded, st, hseed, hst, rfl, h1.1.trans h2.1, h1.2.trans h2.2⟩

theorem seedSplit_no_fuel (model : ReordererModel α) (sent : Sentence) (l r c : Int)
    (st : HypothesisQueue α × HyperGraph α × FeatureSet σ α) :
    seedSplit model sent l r c st ≠ .error Fault.nonTermination := by
  unfold seedSplit
  split
  · split <;> simp
  · simp

theorem seedSplits_no_fuel (model : ReordererModel α) (sent : Sentence) (l r : Int) :
    ∀ (cs : List Int) (st : HypothesisQueue α × HyperGraph α × FeatureSet σ α),
      seedSplits model sent l r cs st ≠ .error Fault.nonTermination
  | [], st => by simp [seedSplits]
  | c :: cs, st => by
    simp only [seedSplits]
    split
    · rename_i e he
      intro hc
      cases hc
      exact seedSplit_no_fuel model sent l r c st he
    · exact seedSplits_no_fuel model sent l r cs _

/-- The beam search of `ProcessOneSpan` always comes to an end. -/
theorem ProcessOneSpan_terminates (tie : Hypothesis α → Hypothesis α → Bool) (hg : HyperGraph α)
    (model : ReordererModel α) (features : FeatureSet σ α) (sent : Sentence) (l r : Int)
    (beam_size : Int) :
    ProcessOneSpan tie hg model features sent l r beam_size ≠ .error Fault.nonTermination := by
  unfold ProcessOneSpan
  split
  · rename_i e he
    intro hc
    cases hc
    exact seedSplits_no_fuel model sent l r _ _ he
  · rename_i seeded hseed
    split
    · rename_i e he
      intro hc
      cases hc
      exact beamLoop_terminates tie seeded.2.1 l r beam_size _ ⟨seeded.1, [], 0⟩ (le_refl _) he
    · simp

/-! ### Scores -/

theorem hypCount_perm {l1 l2 : List (TargetSpan α)} (h : l1.Perm l2) :
    hypCount l1 = hypCount l2 := by
  unfold hypCount
  exact (h.map _).sum_eq

/-- C5. For a positive beam size `k`, the number of hypotheses stored in the
spans that `ProcessOneSpan` returns is the number of rounds of the beam search,
it is at most `k`, and it is `k` unless the queue ran empty; entries that
`popEqual` discards add nothing to the count. -/
theorem ProcessOneSpan_beam_bound (tie : Hypothesis α → Hypothesis α → Bool)
    (hg : HyperGraph α) (model : ReordererModel α) (features : FeatureSet σ α)
    (sent : Sentence) (l r : Int) (beam_size : Int) (hk : 0 < beam_size)
    (res : List (TargetSpan α) × HyperGraph α × FeatureSet σ α)
    (h : ProcessOneSpan tie hg model features sent l r beam_size = .ok res) :
    ((hypCount res.1 : Nat) : Int) ≤ beam_size ∧
    ∃ seeded st,
      seedSplits model sent l r (splitPoints l r) (seedTerminals hg model features sent l r)
        = .ok seeded ∧
      beamLoop tie seeded.2.1 l r beam_size (beamFuel seeded.2.1 l r seeded.1)
        ⟨seeded.1, [], 0⟩ = .ok st ∧
      res.1 = st.spans.insertionSort descSpan ∧
      hypCount res.1 = st.num_processed ∧
      (st.q ≠ [] → ((hypCount res.1 : Nat) : Int) = beam_size) := by
  obtain ⟨seeded, st, hseed, hloop, rfl, -, -⟩ := ProcessOneSpan_ok _ _ _ _ _ _ _ _ _ h
  have hinv := beamLoop_invariant tie seeded.2.1 l r beam_size
    (fun st => hypCount st.spans = st.num_processed ∧ (st.num_processed : Int) ≤ beam_size)
    (fun st st1 hP hc hstep => by
      obtain ⟨hyp, q2, ql, qr, -, -, hspans, hnum, -⟩ := beamStep_ok tie _ l r st st1 hstep
      refine ⟨?_, ?_⟩
      · rw [hspans, hnum, hypCount_addToSpans, hP.1]
      · rw [hnum]
        rcases hc.1 with hc1 | hc1
        · omega
        · push_cast
          omega)
    _ ⟨seeded.1, [], 0⟩ st ⟨by simp [hypCount], by simpa using le_of_lt hk⟩ hloop
  obtain ⟨⟨hcount, hle⟩, hcond⟩ := hinv
  have hperm : hypCount (st.spans.insertionSort descSpan) = st.num_processed := by
    rw [hypCount_perm (List.perm_insertionSort descSpan st.spans)]
    exact hcount
  refine ⟨by rw [hperm]; exact hle, seeded, st, hseed, hloop, rfl, hperm, ?_⟩
  intro hq
  rw [hperm]
  unfold beamCond at hcond
  by_contra hne
  exact hcond ⟨Or.inr (lt_of_le_of_ne hle hne), hq⟩

/-! ### The feature cache, continued -/

/-- C7. `GetEdgeFeatures` is memoised by the value of the edge: on a hit it
returns the stored vector and leaves the graph and the feature set as they
were (the generator is not run); on a miss it runs the generator once, returns
what it made and adds exactly that entry, keeping every other one; asked again
for the same edge it returns the same vector and changes nothing. -/
theorem GetEdgeFeatures_memoised (hg : HyperGraph α) (feature_gen : FeatureSet σ α)
    (sent : Sentence) (edge : HyperEdge) :
    (∀ v, findFeatures hg.features_ edge = some v →
      GetEdgeFeatures hg feature_gen sent edge = (v, hg, feature_gen)) ∧
    (findFeatures hg.features_ edge = none →
      GetEdgeFeatures hg feature_gen sent edge =
        ((feature_gen.MakeEdgeFeatures feature_gen.state sent edge).1,
         { hg with features_ := hg.features_ ++
            [(edge, (feature_gen.MakeEdgeFeatures feature_gen.state sent edge).1)] },
         { feature_gen with
            state := (feature_gen.MakeEdgeFeatures feature_gen.state sent edge).2 }) ∧
      findFeatures (GetEdgeFeatures hg feature_gen sent edge).2.1.features_ edge =
        some (feature_gen.MakeEdgeFeatures feature_gen.state sent edge).1 ∧
      ∀ e, e ≠ edge → findFeatures (GetEdgeFeatures hg feature_gen sent edge).2.1.features_ e =
        findFeatures hg.features_ e) ∧
    GetEdgeFeatures (GetEdgeFeatures hg feature_gen sent edge).2.1
        (GetEdgeFeatures hg feature_gen sent edge).2.2 sent edge =
      GetEdgeFeatures hg feature_gen sent edge := by
  refine ⟨?_, ?_, ?_⟩
  · intro v hv
    simp [GetEdgeFeatures, hv]
  · intro hnone
    refine ⟨by simp [GetEdgeFeatures, hnone], ?_, ?_⟩
    · simp only [GetEdgeFeatures, hnone]
      exact findFeatures_append_self _ _ _ hnone
    · intro e he
      simp only [GetEdgeFeatures, hnone]
      exact findFeatures_append_ne _ _ _ _ (Ne.symm he)
  · cases hf : findFeatures hg.features_ edge with
    | some v => simp [GetEdgeFeatures, hf]
    | none =>
      have h1 : findFeatures (GetEdgeFeatures hg feature_gen sent edge).2.1.features_ edge =
          some (feature_gen.MakeEdgeFeatures feature_gen.state sent edge).1 := by
        simp only [GetEdgeFeatures, hf]
        exact findFeatures_append_self _ _ _ hf
      have h2 : GetEdgeFeatures hg feature_gen sent edge =
        ((feature_gen.MakeEdgeFeatures feature_gen.state sent edge).1,
         { hg with features_ := hg.features_ ++
            [(edge, (feature_gen.MakeEdgeFeatures feature_gen.state sent edge).1)] },
         { feature_gen with
            state := (feature_gen.MakeEdgeFeatures feature_gen.state sent edge).2 }) := by
        simp [GetEdgeFeatures, hf]
      have hit : ∀ (hg1 : HyperGraph α) (fg1 : FeatureSet σ α) (v : FeatureVectorInt α),
          findFeatures hg1.features_ edge = some v →
          GetEdgeFeatures hg1 fg1 sent edge = (v, hg1, fg1) := by
        intro hg1 fg1 v hv
        simp [GetEdgeFeatures, hv]
      rw [hit _ _ _ h1, h2]

theorem ProcessOneSpan_beam_bound_witness :
    ((hypCount (okOr (ProcessOneSpan lexTie (builtGraph sentABC 0) sumModel typeFeatures
        sentABC 0 2 3) ([], emptyGraph, typeFeatures)).1 : Nat) : Int) ≤ 3 ∧
    ∃ seeded st,
      seedSplits sumModel sentABC 0 2 (splitPoints 0 2)
          (seedTerminals (builtGraph sentABC 0) sumModel typeFeatures sentABC 0 2)
        = .ok seeded ∧
      beamLoop lexTie seeded.2.1 0 2 3 (beamFuel seeded.2.1 0 2 seeded.1)
        ⟨seeded.1, [], 0⟩ = .ok st ∧
      (okOr (ProcessOneSpan lexTie (builtGraph sentABC 0) sumModel typeFeatures
        sentABC 0 2 3) ([], emptyGraph, typeFeatures)).1 = st.spans.insertionSort descSpan ∧
      hypCount (okOr (ProcessOneSpan lexTie (builtGraph sentABC 0) sumModel typeFeatures
        sentABC 0 2 3) ([], emptyGraph, typeFeatures)).1 = st.num_processed ∧
      (st.q ≠ [] → ((hypCount (okOr (ProcessOneSpan lexTie (builtGraph sentABC 0) sumModel
        typeFeatures sentABC 0 2 3) ([], emptyGraph, typeFeatures)).1 : Nat) : Int) = 3) :=
  ProcessOneSpan_beam_bound lexTie (builtGraph sentABC 0) sumModel typeFeatures sentABC 0 2 3
    (by decide) _ rfl

/-! ### Duplicates in a cell -/

theorem accumulateLoss_derivation (heap : List (TargetSpan α)) :
    ∀ (fuel p : Nat) (d : List (Hypothesis α)), bestDerivation heap fuel p = some d →
      accumulateLoss heap fuel p = .ok (d.map (fun h => h.loss)).sum
  | 0, p, d, h => by simp [bestDerivation] at h
  | fuel + 1, p, d, h => by
    simp only [bestDerivation] at h
    simp only [accumulateLoss]
    cases hp : heap.get? p with
    | none => rw [hp] at h; simp at h
    | some t =>
      rw [hp] at h
      simp only at h ⊢
      cases hh : t.hyps with
      | nil => rw [hh] at h; simp at h
      | cons hyp rest =>
        rw [hh] at h
        simp only at h ⊢
        cases hl : hyp.left_child with
        | none =>
          rw [hl] at h
          simp only at h ⊢
          cases hr : hyp.right_child with
          | none =>
            rw [hr] at h
            simp only [Option.some.injEq] at h ⊢
            subst h
            simp
          | some rc =>
            rw [hr] at h
            simp only at h ⊢
            cases hdr : bestDerivation heap fuel rc with
            | none => rw [hdr] at h; simp at h
            | some dr =>
              rw [hdr] at h
              simp only [Option.some.injEq] at h
              subst h
              rw [accumulateLoss_derivation heap fuel rc dr hdr]
              simp
        | some lc =>
          rw [hl] at h
          simp only at h ⊢
          cases hdl : bestDerivation heap fuel lc with
          | none => rw [hdl] at h; simp at h
          | some dl =>
            rw [hdl] at h
            rw [accumulateLoss_derivation heap fuel lc dl hdl]
            simp only at h ⊢
            cases hr : hyp.right_child with
            | none =>
              rw [hr] at h
              simp only [Option.some.injEq] at h ⊢
              subst h
              simp
            | some rc =>
              rw [hr] at h
              simp only at h ⊢
              cases hdr : bestDerivation heap fuel rc with
              | none => rw [hdr] at h; simp at h
              | some dr =>
                rw [hdr] at h
                simp only [Option.some.injEq] at h
                subst h
                rw [accumulateLoss_derivation heap fuel rc dr hdr]
                simp [add_assoc]

/-- In a well-founded store the best derivation of every span exists, within fuel `p + 1`. -/
theorem bestDerivation_total (heap : List (TargetSpan α)) (hwf : HeapWF heap) :
    ∀ (fuel p : Nat), p < fuel → p < heap.length → ∃ d, bestDerivation heap fuel p = some d
  | 0, p, h, _ => by omega
  | fuel + 1, p, hfuel, hp => by
    simp only [bestDerivation]
    obtain ⟨t, ht⟩ : ∃ t, heap.get? p = some t := ⟨_, List.get?_eq_get hp⟩
    rw [ht]
    obtain ⟨hne, hch⟩ := hwf p t ht
    cases hh : t.hyps with
    | nil => exact absurd hh hne
    | cons hyp rest =>
      have hmem : hyp ∈ t.hyps := by rw [hh]; exact List.mem_cons_self _ _
      obtain ⟨hl, hr⟩ := hch hyp hmem
      simp only
      have hleft : ∃ dl, (match hyp.left_child with
               | none => some []
               | some lc => bestDerivation heap fuel lc) = some dl := by
        cases hlc : hyp.left_child with
        | none => exact ⟨[], rfl⟩
        | some lc =>
          have := hl lc hlc
          exact bestDerivation_total heap hwf fuel lc (by omega) (by omega)
      have hright : ∃ dr, (match hyp.right_child with
               | none => some []
               | some rc => bestDerivation heap fuel rc) = some dr := by
        cases hrc : hyp.right_child with
        | none => exact ⟨[], rfl⟩
        | some rc =>
          have := hr rc hrc
          exact bestDerivation_total heap hwf fuel rc (by omega) (by omega)
      obtain ⟨dl, hdl⟩ := hleft
      obtain ⟨dr, hdr⟩ := hright
      rw [hh]
      simp only
      rw [hdl, hdr]
      exact ⟨_, rfl⟩

/-- More fuel does not change a derivation that was found. -/
theorem bestDerivation_mono (heap : List (TargetSpan α)) :
    ∀ (fuel fuel1 p : Nat) (d : List (Hypothesis α)), fuel ≤ fuel1 →
      bestDerivation heap fuel p = some d → bestDerivation heap fuel1 p = some d
  | 0, _, p, d, _, h => by simp [bestDerivation] at h
  | fuel + 1, 0, p, d, hle, h => by omega
  | fuel + 1, fuel1 + 1, p, d, hle, h => by
    simp only [bestDerivation] at h ⊢
    cases hp : heap.get? p with
    | none => rw [hp] at h; simp at h
    | some t =>
      rw [hp] at h
      simp only at h ⊢
      cases hh : t.hyps with
      | nil => rw [hh] at h; simp at h
      | cons hyp rest =>
        rw [hh] at h
        simp only at h ⊢
        have ih := bestDerivation_mono heap fuel fuel1
        cases hl : hyp.left_child with
        | none =>
          rw [hl] at h
          cases hr : hyp.right_child with
          | none => rw [hr] at h; exact h
          | some rc =>
            rw [hr] at h
            simp only at h ⊢
            cases hdr : bestDerivation heap fuel rc with
            | none => rw [hdr] at h; simp at h
            | some dr =>
              rw [hdr] at h
              rw [ih rc dr (by omega) hdr]
              exact h
        | some lc =>
          rw [hl] at h
          simp only at h ⊢
          cases hdl : bestDerivation heap fuel lc with
          | none => rw [hdl] at h; simp at h
          | some dl =>
            rw [hdl] at h
            rw [ih lc dl (by omega) hdl]
            cases hr : hyp.right_child with
            | none => rw [hr] at h; exact h
            | some rc =>
              rw [hr] at h
              simp only at h ⊢
              cases hdr : bestDerivation heap fuel rc with
              | none => rw [hdr] at h; simp at h
              | some dr =>
                rw [hdr] at h
                rw [ih rc dr (by omega) hdr]
                exact h

theorem bestDerivation_step (heap : List (TargetSpan α)) (fuel p : Nat) (t : TargetSpan α)
    (hyp : Hypothesis α) (rest d : List (Hypothesis α)) (hp : heap.get? p = some t)
    (hh : t.hyps = hyp :: rest) (h : bestDerivation heap (fuel + 1) p = some d) :
    ∃ dl dr, d = hyp :: (dl ++ dr) ∧
      ((hyp.left_child = none ∧ dl = []) ∨
        ∃ lc, hyp.left_child = some lc ∧ bestDerivation heap fuel lc = some dl) ∧
      ((hyp.right_child = none ∧ dr = []) ∨
        ∃ rc, hyp.right_child = some rc ∧ bestDerivation heap fuel rc = some dr) := by
  simp only [bestDerivation] at h
  rw [hp] at h
  simp only at h
  rw [hh] at h
  simp only at h
  split at h
  · rename_i dl dr hdl hdr
    simp only [Option.some.injEq] at h
    refine ⟨dl, dr, h.symm, ?_, ?_⟩
    · cases hl : hyp.left_child with
      | none =>
        rw [hl] at hdl
        simp only [Option.some.injEq] at hdl
        exact Or.inl ⟨rfl, hdl.symm⟩
      | some lc =>
        rw [hl] at hdl
        exact Or.inr ⟨lc, rfl, hdl⟩
    · cases hr : hyp.right_child with
      | none =>
        rw [hr] at hdr
        simp only [Option.some.injEq] at hdr
        exact Or.inl ⟨rfl, hdr.symm⟩
      | some rc =>
        rw [hr] at hdr
        exact Or.inr ⟨rc, rfl, hdr⟩
  · cases h

/-- C8. In a well-founded store, `AccumulateLoss(span)` returns the sum of the
`loss` fields of the hypotheses on the rank-0 derivation rooted at `span`, which
is the loss of the rank-0 hypothesis of `span` plus `AccumulateLoss` of its left
child and of its right child, where an absent child adds nothing. -/
theorem AccumulateLoss_sum (hg : HyperGraph α) (hwf : HeapWF hg.heap) (p : Nat)
    (hp : p < hg.heap.length) :
    ∃ d t hyp vl vr, bestDerivation hg.heap (hg.heap.length + 1) p = some d ∧
      AccumulateLoss hg p = .ok (d.map (fun h => h.loss)).sum ∧
      hg.heap.get? p = some t ∧ t.hyps.head? = some hyp ∧
      childLoss hg hyp.left_child = .ok vl ∧ childLoss hg hyp.right_child = .ok vr ∧
      AccumulateLoss hg p = .ok (hyp.loss + vl + vr) := by
  obtain ⟨d, hd⟩ := bestDerivation_total hg.heap hwf (hg.heap.length + 1) p (by omega) hp
  obtain ⟨t, ht⟩ : ∃ t, hg.heap.get? p = some t := ⟨_, List.get?_eq_get hp⟩
  obtain ⟨hne, -⟩ := hwf p t ht
  obtain ⟨hyp, rest, hh⟩ := List.exists_cons_of_ne_nil hne
  obtain ⟨dl, dr, rfl, hl, hr⟩ := bestDerivation_step hg.heap _ p t hyp rest d ht hh hd
  have hacc := accumulateLoss_derivation hg.heap _ p _ hd
  have hchild : ∀ (child : Option Nat) (dc : List (Hypothesis α)),
      ((child = none ∧ dc = []) ∨
        ∃ c, child = some c ∧ bestDerivation hg.heap hg.heap.length c = some dc) →
      childLoss hg child = .ok (dc.map (fun h => h.loss)).sum := by
    intro child dc h
    rcases h with ⟨rfl, rfl⟩ | ⟨c, rfl, hc⟩
    · simp [childLoss]
    · exact accumulateLoss_derivation hg.heap _ c dc
        (bestDerivation_mono hg.heap _ _ c dc (Nat.le_succ _) hc)
  refine ⟨_, t, hyp, _, _, hd, hacc, ht, by rw [hh]; rfl, hchild _ dl hl, hchild _ dr hr, ?_⟩
  show accumulateLoss hg.heap (hg.heap.length + 1) p = _
  rw [hacc]
  simp [add_assoc]

theorem lossTree_wf : HeapWF lossTree.heap := by
  intro p t h
  match p, h with
  | 0, h => simp [lossTree] at h; subst h; simp [lossHyp]
  | 1, h => simp [lossTree] at h; subst h; simp [lossHyp]
  | 2, h => simp [lossTree] at h; subst h; simp [lossHyp]
  | 3, h => simp [lossTree] at h; subst h; simp [lossHyp]
  | n + 4, h => simp [lossTree] at h

theorem AccumulateLoss_sum_witness :
    HeapWF lossTree.heap ∧ 3 < lossTree.heap.length ∧
    AccumulateLoss lossTree 3 = .ok 1 ∧
    ∃ d t hyp vl vr, bestDerivation lossTree.heap (lossTree.heap.length + 1) 3 = some d ∧
      AccumulateLoss lossTree 3 = .ok (d.map (fun h => h.loss)).sum ∧
      lossTree.heap.get? 3 = some t ∧ t.hyps.head? = some hyp ∧
      childLoss lossTree hyp.left_child = .ok vl ∧ childLoss lossTree hyp.right_child = .ok vr ∧
      AccumulateLoss lossTree 3 = .ok (hyp.loss + vl + vr) := by
  refine ⟨lossTree_wf, by simp [lossTree], ?_,
    AccumulateLoss_sum lossTree lossTree_wf 3 (by simp [lossTree])⟩
  simp [AccumulateLoss, accumulateLoss, lossTree, lossHyp]
  norm_num

/-! ### The features of the best derivation -/

theorem featMapAdd_keys (id : Int) (w : α) :
    ∀ (m : List (Int × α)) (k : Int),
      k ∈ (featMapAdd id w m).map Prod.fst ↔ k = id ∨ k ∈ m.map Prod.fst
  | [], k => by simp [featMapAdd]
  | (k1, v1) :: m, k => by
    simp only [featMapAdd]
    split_ifs with h1 h2
    · subst h1
      simp only [List.map_cons, List.mem_cons]
      tauto
    · simp only [List.map_cons, List.mem_cons]
    · simp only [List.map_cons, List.mem_cons, featMapAdd_keys id w m k]
      tauto

theorem featMapAdd_sorted (id : Int) (w : α) :
    ∀ (m : List (Int × α)), (m.map Prod.fst).Sorted (· < ·) →
      ((featMapAdd id w m).map Prod.fst).Sorted (· < ·)
  | [], _ => by simp [featMapAdd]
  | (k1, v1) :: m, h => by
    simp only [featMapAdd]
    split_ifs with h1 h2
    · exact h
    · simp only [List.map_cons, List.sorted_cons] at h ⊢
      refine ⟨?_, h⟩
      intro b hb
      rcases List.mem_cons.1 hb with hb | hb
      · subst hb; exact h2
      · exact lt_trans h2 (h.1 b hb)
    · simp only [List.map_cons, List.sorted_cons] at h ⊢
      refine ⟨?_, featMapAdd_sorted id w m h.2⟩
      intro b hb
      rcases (featMapAdd_keys id w m b).1 hb with hb | hb
      · subst hb
        omega
      · exact h.1 b hb

theorem featWeight_cons (id : Int) (k : Int) (v : α) (m : List (Int × α)) :
    featWeight id ((k, v) :: m) = (if k = id then v else 0) + featWeight id m := by
  unfold featWeight
  by_cases h : k = id
  · simp [List.filter_cons, h]
  · simp [List.filter_cons, h]

theorem featWeight_featMapAdd (id : Int) (w : α) (k : Int) :
    ∀ (m : List (Int × α)),
      featWeight k (featMapAdd id w m) = featWeight k m + (if id = k then w else 0)
  | [] => by
    simp only [featMapAdd, featWeight_cons]
    simp [featWeight]
  | (k1, v1) :: m => by
    simp only [featMapAdd]
    split_ifs with h1 h2 h3 h4 h5
    all_goals simp only [featWeight_cons, featWeight_featMapAdd id w k m]
    all_goals first
      | (subst h1; simp_all; try ring)
      | (simp_all; try ring)

theorem featMapAddAll_spec :
    ∀ (pairs m : List (Int × α)), (m.map Prod.fst).Sorted (· < ·) →
      ((featMapAddAll pairs m).map Prod.fst).Sorted (· < ·) ∧
      (∀ k, k ∈ (featMapAddAll pairs m).map Prod.fst ↔
        k ∈ m.map Prod.fst ∨ k ∈ pairs.map Prod.fst) ∧
      (∀ k, featWeight k (featMapAddAll pairs m) = featWeight k m + featWeight k pairs)
  | [], m, h => by
    simp [featMapAddAll, featWeight]
    exact h
  | (id, w) :: pairs, m, h => by
    have ih := featMapAddAll_spec pairs (featMapAdd id w m) (featMapAdd_sorted id w m h)
    have he : featMapAddAll ((id, w) :: pairs) m = featMapAddAll pairs (featMapAdd id w m) := rfl
    rw [he]
    refine ⟨ih.1, ?_, ?_⟩
    · intro k
      rw [ih.2.1 k, featMapAdd_keys]
      simp only [List.map_cons, List.mem_cons]
      tauto
    · intro k
      rw [ih.2.2 k, featWeight_featMapAdd, featWeight_cons]
      ring

theorem featMapAddAll_append (p1 p2 m : List (Int × α)) :
    featMapAddAll (p1 ++ p2) m = featMapAddAll p2 (featMapAddAll p1 m) := by
  simp [featMapAddAll, List.foldl_append]

theorem featWeight_of_mem :
    ∀ (m : List (Int × α)), (m.map Prod.fst).Sorted (· < ·) → ∀ id w, (id, w) ∈ m →
      featWeight id m = w
  | [], _, id, w, h => by simp at h
  | (k1, v1) :: m, hs, id, w, h => by
    simp only [List.map_cons, List.sorted_cons] at hs
    rw [featWeight_cons]
    rcases List.mem_cons.1 h with h | h
    · simp only [Prod.mk.injEq] at h
      obtain ⟨rfl, rfl⟩ := h
      have : featWeight id m = 0 := by
        unfold featWeight
        have : m.filter (fun p => decide (p.1 = id)) = [] := by
          rw [List.filter_eq_nil_iff]
          intro a ha
          have := hs.1 a.1 (List.mem_map_of_mem Prod.fst ha)
          simp only [decide_eq_true_eq]
          omega
        rw [this]
        simp
      simp [this]
    · have hlt := hs.1 id (List.mem_map_of_mem Prod.fst h)
      have hne : k1 ≠ id := by omega
      rw [if_neg hne, featWeight_of_mem m hs.2 id w h]
      simp

theorem derivationPairs_append (hg : HyperGraph α) :
    ∀ (d1 d2 : List (Hypothesis α)) (p1 p2 : List (Int × α)),
      derivationPairs hg d1 = some p1 → derivationPairs hg d2 = some p2 →
      derivationPairs hg (d1 ++ d2) = some (p1 ++ p2)
  | [], d2, p1, p2, h1, h2 => by
    simp only [derivationPairs, Option.some.injEq] at h1
    subst h1
    simpa using h2
  | h :: d1, d2, p1, p2, h1, h2 => by
    simp only [derivationPairs, List.cons_append] at h1 ⊢
    split at h1
    · rename_i v rest hv hrest
      simp only [Option.some.injEq] at h1
      subst h1
      have ih := derivationPairs_append hg d1 d2 rest p2 hrest h2
      simp only [List.append_eq] at ih ⊢
      rw [hv, ih]
      simp
    · cases h1

theorem derivationPairs_split (hg : HyperGraph α) :
    ∀ (d1 d2 : List (Hypothesis α)) (ps : List (Int × α)),
      derivationPairs hg (d1 ++ d2) = some ps →
      ∃ p1 p2, derivationPairs hg d1 = some p1 ∧ derivationPairs hg d2 = some p2 ∧
        ps = p1 ++ p2
  | [], d2, ps, h => ⟨[], ps, rfl, by simpa using h, rfl⟩
  | h :: d1, d2, ps, hps => by
    simp only [derivationPairs, List.cons_append] at hps ⊢
    split at hps
    · rename_i v rest hv hrest
      simp only [Option.some.injEq] at hps
      subst hps
      simp only [List.append_eq] at hrest
      obtain ⟨p1, p2, h1, h2, rfl⟩ := derivationPairs_split hg d1 d2 rest hrest
      rw [hv, h1]
      exact ⟨v ++ p1, p2, rfl, h2, by simp⟩
    · cases hps

theorem derivationPairs_mem (hg : HyperGraph α) :
    ∀ (d : List (Hypothesis α)) (ps : List (Int × α)), derivationPairs hg d = some ps →
      ∀ x, x ∈ ps ↔ ∃ h ∈ d, h.type ≠ HyperEdgeType.EDGE_ROOT ∧
        ∃ v, findFeatures hg.features_ (hypEdge h) = some v ∧ x ∈ v
  | [], ps, h, x => by
    simp only [derivationPairs, Option.some.injEq] at h
    subst h
    simp
  | h :: d, ps, hps, x => by
    simp only [derivationPairs] at hps
    split at hps
    · rename_i v rest hv hrest
      simp only [Option.some.injEq] at hps
      subst hps
      have ih := derivationPairs_mem hg d rest hrest x
      simp only [List.mem_append, ih, List.mem_cons, exists_eq_or_imp]
      by_cases hroot : h.type ≠ HyperEdgeType.EDGE_ROOT
      · rw [if_pos hroot] at hv
        constructor
        · rintro (hx | hx)
          · exact Or.inl ⟨hroot, v, hv, hx⟩
          · exact Or.inr hx
        · rintro (⟨-, v1, hv1, hx⟩ | hx)
          · rw [hv] at hv1
            cases hv1
            exact Or.inl hx
          · exact Or.inr hx
      · rw [if_neg hroot] at hv
        simp only [Option.some.injEq] at hv
        subst hv
        constructor
        · rintro (hx | hx)
          · simp at hx
          · exact Or.inr hx
        · rintro (⟨h1, -⟩ | hx)
          · exact absurd h1 hroot
          · exact Or.inr hx
    · cases hps

theorem bestDerivation_inv (heap : List (TargetSpan α)) (fuel p : Nat)
    (d : List (Hypothesis α)) (h : bestDerivation heap (fuel + 1) p = some d) :
    ∃ t hyp rest, heap.get? p = some t ∧ t.hyps = hyp :: rest := by
  simp only [bestDerivation] at h
  cases hp : heap.get? p with
  | none => rw [hp] at h; simp at h
  | some t =>
    rw [hp] at h
    simp only at h
    cases hh : t.hyps with
    | nil => rw [hh] at h; simp at h
    | cons hyp rest => exact ⟨t, hyp, rest, rfl, hh⟩

/-- Along a derivation whose edges are all in the cache, `AccumulateFeatures`
adds the feature pairs of the derivation to the map, in the order of the visit. -/
theorem accumulateFeatures_derivation (hg : HyperGraph α) :
    ∀ (fuel p : Nat) (d : List (Hypothesis α)) (ps m : List (Int × α)),
      bestDerivation hg.heap fuel p = some d → derivationPairs hg d = some ps →
      accumulateFeatures hg fuel p m = .ok (featMapAddAll ps m)
  | 0, p, d, ps, m, h, _ => by simp [bestDerivation] at h
  | fuel + 1, p, d, ps, m, hd, hps => by
    obtain ⟨t, hyp, rest, ht, hh⟩ := bestDerivation_inv hg.heap fuel p d hd
    obtain ⟨dl, dr, rfl, hl, hr⟩ := bestDerivation_step hg.heap fuel p t hyp rest d ht hh hd
    simp only [derivationPairs] at hps
    split at hps
    · rename_i v prest hv hprest
      simp only [Option.some.injEq] at hps
      subst hps
      obtain ⟨pl, pr, hpl, hpr, rfl⟩ := derivationPairs_split hg dl dr prest hprest
      simp only [accumulateFeatures]
      rw [ht]
      simp only
      rw [hh]
      simp only
      have h1 : (if hyp.type ≠ HyperEdgeType.EDGE_ROOT then
                match findFeatures hg.features_ ⟨hyp.left, hyp.center, hyp.right, hyp.type⟩ with
                | none => Except.error Fault.noFeatures
                | some fit => Except.ok (featMapAddAll fit m)
              else Except.ok m) = Except.ok (featMapAddAll v m) := by
        by_cases hroot : hyp.type ≠ HyperEdgeType.EDGE_ROOT
        · rw [if_pos hroot] at hv ⊢
          unfold hypEdge at hv
          rw [hv]
        · rw [if_neg hroot] at hv ⊢
          simp only [Option.some.injEq] at hv
          subst hv
          rfl
      rw [h1]
      simp only
      have h2 : (match hyp.left_child with
                 | none => Except.ok (featMapAddAll v m)
                 | some lc => accumulateFeatures hg fuel lc (featMapAddAll v m)) =
          Except.ok (featMapAddAll pl (featMapAddAll v m)) := by
        rcases hl with ⟨hl, rfl⟩ | ⟨lc, hl, hdl⟩
        · rw [hl]
          simp only [derivationPairs, Option.some.injEq] at hpl
          subst hpl
          rfl
        · rw [hl]
          exact accumulateFeatures_derivation hg fuel lc dl pl _ hdl hpl
      rw [h2]
      simp only
      have h3 : (match hyp.right_child with
                 | none => Except.ok (featMapAddAll pl (featMapAddAll v m))
                 | some rc => accumulateFeatures hg fuel rc (featMapAddAll pl (featMapAddAll v m))) =
          Except.ok (featMapAddAll pr (featMapAddAll pl (featMapAddAll v m))) := by
        rcases hr with ⟨hr, rfl⟩ | ⟨rc, hr, hdr⟩
        · rw [hr]
          simp only [derivationPairs, Option.some.injEq] at hpr
          subst hpr
          rfl
        · rw [hr]
          exact accumulateFeatures_derivation hg fuel rc dr pr _ hdr hpr
      rw [h3, featMapAddAll_append, featMapAddAll_append]
    · cases hps

/-- C9. On a forest in which the rank-0 derivation rooted at `span` exists and
the edge of each of its hypotheses other than the root is in the cache,
`AccumulateFeatures(span)` returns a vector whose ids are strictly ascending,
that holds exactly the ids occurring in the cached vector of a non-root
hypothesis of the derivation, and in which the weight of an id is the sum of
the weights of that id over all those vectors; the root adds nothing. -/
theorem AccumulateFeatures_merged (hg : HyperGraph α) (p : Nat) (d : List (Hypothesis α))
    (pairs : List (Int × α))
    (hd : bestDerivation hg.heap (hg.heap.length + 1) p = some d)
    (hp : derivationPairs hg d = some pairs) :
    ∃ res, AccumulateFeatures hg p = .ok res ∧
      (res.map Prod.fst).Sorted (· < ·) ∧
      (∀ id, id ∈ res.map Prod.fst ↔ ∃ h ∈ d, h.type ≠ HyperEdgeType.EDGE_ROOT ∧
        ∃ v, findFeatures hg.features_ (hypEdge h) = some v ∧ id ∈ v.map Prod.fst) ∧
      (∀ id w, (id, w) ∈ res → w = featWeight id pairs) := by
  have hacc := accumulateFeatures_derivation hg _ p d pairs [] hd hp
  have hspec := featMapAddAll_spec pairs [] (by simp)
  refine ⟨featMapAddAll pairs [], hacc, hspec.1, ?_, ?_⟩
  · intro id
    rw [hspec.2.1 id]
    simp only [List.map_nil, List.not_mem_nil, false_or, List.mem_map]
    constructor
    · rintro ⟨x, hx, rfl⟩
      obtain ⟨h, hh, hroot, v, hv, hxv⟩ := (derivationPairs_mem hg d pairs hp x).1 hx
      exact ⟨h, hh, hroot, v, hv, x, hxv, rfl⟩
    · rintro ⟨h, hh, hroot, v, hv, x, hxv, rfl⟩
      exact ⟨x, (derivationPairs_mem hg d pairs hp x).2 ⟨h, hh, hroot, v, hv, hxv⟩, rfl⟩
  · intro id w hw
    have h1 := featWeight_of_mem _ hspec.1 id w hw
    have h2 := hspec.2.2 id
    rw [h1] at h2
    rw [h2]
    simp [featWeight]

theorem AccumulateFeatures_merged_witness :
    bestDerivation (builtGraph sentABC 0).heap ((builtGraph sentABC 0).heap.length + 1) 13 =
      some [⟨2, 0, 0, 2, 0, 2, HyperEdgeType.EDGE_ROOT, -1, 0, -1, some 7, none⟩,
            ⟨2, 0, 0, 2, 0, 2, HyperEdgeType.EDGE_STR, 2, 0, 0, some 2, some 4⟩,
            ⟨1, 0, 0, 1, 0, 1, HyperEdgeType.EDGE_STR, 1, 0, 0, some 0, some 1⟩,
            ⟨0, 0, 0, 0, 0, 0, HyperEdgeType.EDGE_FOR, -1, -1, -1, none, none⟩,
            ⟨0, 0, 1, 1, 1, 1, HyperEdgeType.EDGE_FOR, -1, -1, -1, none, none⟩,
            ⟨0, 0, 2, 2, 2, 2, HyperEdgeType.EDGE_FOR, -1, -1, -1, none, none⟩] ∧
    derivationPairs (builtGraph sentABC 0)
      [⟨2, 0, 0, 2, 0, 2, HyperEdgeType.EDGE_ROOT, -1, 0, -1, some 7, none⟩,
       ⟨2, 0, 0, 2, 0, 2, HyperEdgeType.EDGE_STR, 2, 0, 0, some 2, some 4⟩,
       ⟨1, 0, 0, 1, 0, 1, HyperEdgeType.EDGE_STR, 1, 0, 0, some 0, some 1⟩,
       ⟨0, 0, 0, 0, 0, 0, HyperEdgeType.EDGE_FOR, -1, -1, -1, none, none⟩,
       ⟨0, 0, 1, 1, 1, 1, HyperEdgeType.EDGE_FOR, -1, -1, -1, none, none⟩,
       ⟨0, 0, 2, 2, 2, 2, HyperEdgeType.EDGE_FOR, -1, -1, -1, none, none⟩] =
      some [(83, 1), (83, 1), (70, 0), (70, 0), (70, 0)] ∧
    AccumulateFeatures (builtGraph sentABC 0) 13 = .ok [(70, 0), (83, 2)] ∧
    ∃ res, AccumulateFeatures (builtGraph sentABC 0) 13 = .ok res ∧
      (res.map Prod.fst).Sorted (· < ·) ∧
      (∀ id, id ∈ res.map Prod.fst ↔ ∃ h ∈
        [(⟨2, 0, 0, 2, 0, 2, HyperEdgeType.EDGE_ROOT, -1, 0, -1, some 7, none⟩ : Hypothesis Int),
         ⟨2, 0, 0, 2, 0, 2, HyperEdgeType.EDGE_STR, 2, 0, 0, some 2, some 4⟩,
         ⟨1, 0, 0, 1, 0, 1, HyperEdgeType.EDGE_STR, 1, 0, 0, some 0, some 1⟩,
         ⟨0, 0, 0, 0, 0, 0, HyperEdgeType.EDGE_FOR, -1, -1, -1, none, none⟩,
         ⟨0, 0, 1, 1, 1, 1, HyperEdgeType.EDGE_FOR, -1, -1, -1, none, none⟩,
         ⟨0, 0, 2, 2, 2, 2, HyperEdgeType.EDGE_FOR, -1, -1, -1, none, none⟩],
        h.type ≠ HyperEdgeType.EDGE_ROOT ∧
        ∃ v, findFeatures (builtGraph sentABC 0).features_ (hypEdge h) = some v ∧
          id ∈ v.map Prod.fst) ∧
      (∀ id w, (id, w) ∈ res →
        w = featWeight id [(83, 1), (83, 1), (70, 0), (70, 0), (70, 0)]) :=
  ⟨by decide, by decide, rfl,
    AccumulateFeatures_merged (builtGraph sentABC 0) 13 _ _ (by decide) (by decide)⟩

/-! ### The triangular table -/

theorem addToSpans_ne_nil (hyp : Hypothesis α) (spans : List (TargetSpan α)) :
    addToSpans hyp spans ≠ [] := by
  cases spans with
  | nil => simp [addToSpans]
  | cons t ts =>
    simp only [addToSpans]
    split_ifs <;> simp

theorem LossVariant_refl (hg : HyperGraph α) : LossVariant hg hg :=
  ⟨rfl, rfl, rfl, fun _ t0 h0 => ⟨t0, h0, rfl, rfl, rfl, rfl, rfl,
    fun _ h hh => ⟨h, hh, rfl, rfl, rfl, rfl, rfl, rfl, rfl, rfl, rfl, rfl⟩⟩⟩

theorem idOf_append (syms ext : List String) (name : String) (h : name ∈ syms) :
    idOf (syms ++ ext) name = idOf syms name := by
  unfold idOf
  rw [List.indexOf_append_of_mem h]

theorem GetId_spec (syms : List String) (name : String) (add : Bool)
    (got : Int × List String) (h : GetId syms name add = .ok got) :
    ∃ ext, got.2 = syms ++ ext ∧ name ∈ got.2 ∧ got.1 = idOf got.2 name := by
  unfold GetId at h
  split_ifs at h with h1 h2
  · cases h
    exact ⟨[], by simp, List.indexOf_lt_length.1 h1, rfl⟩
  · cases h
    have hnot : name ∉ syms := fun hm => h1 (List.indexOf_lt_length.2 hm)
    refine ⟨[name], rfl, by simp, ?_⟩
    unfold idOf
    rw [List.indexOf_append_of_not_mem hnot]
    simp

theorem pushFeatures_spec (add : Bool) :
    ∀ (strs : FeatureVectorString α) (acc res : FeatureVectorInt α × List String),
      pushFeatures add strs acc = .ok res →
      ∃ ext, res.2 = acc.2 ++ ext ∧
        res.1 = acc.1 ++ strs.map (fun p => (idOf res.2 p.1, p.2)) ∧
        ∀ p ∈ strs, p.1 ∈ res.2
  | [], acc, res, h => by
    simp only [pushFeatures] at h
    cases h
    exact ⟨[], by simp, by simp, fun p hp => by simp at hp⟩
  | s :: strs, acc, res, h => by
    simp only [pushFeatures] at h
    split at h
    · cases h
    · rename_i got hgot
      obtain ⟨ext1, he1, hmem1, hid1⟩ := GetId_spec acc.2 s.1 add got hgot
      obtain ⟨ext2, he2, hfe, hmem2⟩ := pushFeatures_spec add strs _ res h
      simp only at he2 hfe
      have hs : s.1 ∈ res.2 := by
        rw [he2]
        exact List.mem_append_left _ hmem1
      refine ⟨ext1 ++ ext2, by rw [he2, he1, List.append_assoc], ?_, ?_⟩
      · rw [hfe, List.map_cons, List.append_assoc, List.singleton_append, hid1]
        congr 3
        rw [he2]
        exact (idOf_append _ _ _ hmem1).symm
      · intro p hp
        rcases List.mem_cons.1 hp with h1 | h1
        · rw [h1]; exact hs
        · exact hmem2 p h1

theorem genFeatures_spec {ν : Type}
    (generate : FeatureBase ν α → FeatureDataBase → FeatureVectorString α) (add : Bool) :
    ∀ (sent : List FeatureDataBase) (gens : List (Option (FeatureBase ν α)))
      (acc res : FeatureVectorInt α × List String),
      genFeatures generate add sent gens acc = .ok res →
      ∃ ext, res.2 = acc.2 ++ ext ∧
        res.1 = acc.1 ++
          (generatedFeatures generate sent gens).map (fun p => (idOf res.2 p.1, p.2)) ∧
        ∀ p ∈ generatedFeatures generate sent gens, p.1 ∈ res.2
  | [], gens, acc, res, h => by
    simp only [genFeatures] at h
    cases h
    exact ⟨[], by simp, by simp [generatedFeatures], fun p hp => by
      simp [generatedFeatures] at hp⟩
  | s :: sent, [], acc, res, h => by simp [genFeatures] at h
  | s :: sent, none :: gens, acc, res, h => by simp [genFeatures] at h
  | s :: sent, some gen :: gens, acc, res, h => by
    simp only [genFeatures] at h
    split at h
    · cases h
    · rename_i acc1 hacc1
      obtain ⟨ext1, he1, hf1, hm1⟩ := pushFeatures_spec add (generate gen s) acc acc1 hacc1
      obtain ⟨ext2, he2, hf2, hm2⟩ := genFeatures_spec generate add sent gens acc1 res h
      refine ⟨ext1 ++ ext2, by rw [he2, he1, List.append_assoc], ?_, ?_⟩
      · rw [hf2, hf1]
        simp only [generatedFeatures, List.map_append, List.append_assoc]
        congr 2
        apply List.map_congr_left
        intro p hp
        rw [he2, idOf_append _ _ _ (hm1 p hp)]
      · intro p hp
        simp only [generatedFeatures, List.mem_append] at hp
        rcases hp with h1 | h1
        · rw [he2]
          exact List.mem_append_left _ (hm1 p h1)
        · exact hm2 p h1

theorem pairLe_fst (a b : Int × α) (h : pairLe a b) : a.1 ≤ b.1 := by
  rcases h with h | ⟨h, -⟩
  · exact le_of_lt h
  · exact le_of_eq h

theorem stored_spec {ν : Type}
    (generate : FeatureBase ν α → FeatureDataBase → FeatureVectorString α) (add : Bool)
    (sent : List FeatureDataBase) (gens : List (Option (FeatureBase ν α)))
    (ids0 : List String) (res : FeatureVectorInt α × List String)
    (h : genFeatures generate add sent gens ([], ids0) = .ok res) :
    StoredOK ids0 (generatedFeatures generate sent gens) res.2
      (some (res.1.insertionSort pairLe)) := by
  obtain ⟨ext, he, hf, hm⟩ := genFeatures_spec generate add sent gens _ res h
  simp only [List.nil_append] at hf
  have hsorted : (res.1.insertionSort pairLe).Sorted pairLe :=
    List.sorted_insertionSort pairLe _
  refine ⟨_, ext, rfl, hsorted, ?_, ?_, hm, he⟩
  · exact List.Pairwise.map Prod.fst (fun a b hab => pairLe_fst a b hab) hsorted
  · have := List.perm_insertionSort pairLe res.1
    rw [hf] at this ⊢
    exact this

/-- C14 (a run of the code). With one generator that makes the feature `f`
twice for an edge, the vector that `AddEdgeFeatures` stores holds the id of
`f` twice. -/
theorem AddEdgeFeatures_repeats_id :
    ∃ fs1 feats,
      AddEdgeFeatures (fun (b : Bool) => b) (freshSet [twiceGen]) [⟨["A"]⟩] false
        ⟨0, -1, 0, HyperEdgeType.EDGE_FOR⟩ = .ok (fs1, some feats) ∧
      feats = [(0, 1), (0, 2)] ∧ ¬ (feats.map Prod.fst).Nodup :=
  ⟨⟨[some twiceGen], ["f"], true⟩, [(0, 1), (0, 2)], rfl, rfl, by decide⟩

/-- C14, as amended. For every sentence, every feature set and every node
that is not the root, and every edge, the vector that `AddEdgeFeatures`, and
likewise `AddNodeFeatures`, stores is in the order of `sort` (ascending in the
pair of id and weight, so the ids never descend) and holds, for every feature
that the generators made, as often as they made it, the pair of the id that
the table gives its name and its weight; the generators and the switch are
left as they were and the table has only grown. -/
theorem AddEdgeFeatures_sorted {ν : Type} (IsRoot : ν → Bool) (fs : FeatureSetData ν α)
    (sent : List FeatureDataBase) (node : ν) (edge : HyperEdge)
    (hroot : IsRoot node = false) :
    (∀ fs1 stored, AddEdgeFeatures IsRoot fs sent node edge = .ok (fs1, stored) →
      StoredOK fs.feature_ids_
        (generatedFeatures (fun gen s => gen.GenerateEdgeFeatures s node edge) sent
          fs.feature_gens_) fs1.feature_ids_ stored ∧
      fs1.feature_gens_ = fs.feature_gens_ ∧ fs1.add_ = fs.add_) ∧
    (∀ fs1 stored, AddNodeFeatures IsRoot fs sent node = .ok (fs1, stored) →
      StoredOK fs.feature_ids_
        (generatedFeatures (fun gen s => gen.GenerateNodeFeatures s node) sent
          fs.feature_gens_) fs1.feature_ids_ stored ∧
      fs1.feature_gens_ = fs.feature_gens_ ∧ fs1.add_ = fs.add_) := by
  constructor
  · intro fs1 stored h
    unfold AddEdgeFeatures at h
    rw [hroot] at h
    simp only [Bool.false_eq_true, if_false] at h
    split at h
    · cases h
    · rename_i res hres
      cases h
      exact ⟨stored_spec _ _ _ _ _ res hres, rfl, rfl⟩
  · intro fs1 stored h
    unfold AddNodeFeatures at h
    rw [hroot] at h
    simp only [Bool.false_eq_true, if_false] at h
    split at h
    · cases h
    · rename_i res hres
      cases h
      exact ⟨stored_spec _ _ _ _ _ res hres, rfl, rfl⟩

theorem AddEdgeFeatures_sorted_witness :
    (fun (b : Bool) => b) false = false ∧
    AddEdgeFeatures (fun (b : Bool) => b) (freshSet [twoGen, twiceGen]) [⟨["A"]⟩, ⟨["N"]⟩]
      false ⟨0, 1, 1, HyperEdgeType.EDGE_STR⟩
      = .ok (⟨[some twoGen, some twiceGen], ["b", "a", "f"], true⟩,
          some [(0, 5), (1, 7), (2, 1), (2, 2)]) ∧
    ((∀ fs1 stored, AddEdgeFeatures (fun (b : Bool) => b) (freshSet [twoGen, twiceGen])
        [⟨["A"]⟩, ⟨["N"]⟩] false ⟨0, 1, 1, HyperEdgeType.EDGE_STR⟩ = .ok (fs1, stored) →
      StoredOK (freshSet [twoGen, twiceGen]).feature_ids_
        (generatedFeatures (fun gen s => gen.GenerateEdgeFeatures s false
          ⟨0, 1, 1, HyperEdgeType.EDGE_STR⟩) [⟨["A"]⟩, ⟨["N"]⟩]
          (freshSet [twoGen, twiceGen]).feature_gens_) fs1.feature_ids_ stored ∧
      fs1.feature_gens_ = (freshSet [twoGen, twiceGen]).feature_gens_ ∧
      fs1.add_ = (freshSet [twoGen, twiceGen]).add_) ∧
    (∀ fs1 stored, AddNodeFeatures (fun (b : Bool) => b) (freshSet [twoGen, twiceGen])
        [⟨["A"]⟩, ⟨["N"]⟩] false = .ok (fs1, stored) →
      StoredOK (freshSet [twoGen, twiceGen]).feature_ids_
        (generatedFeatures (fun gen s => gen.GenerateNodeFeatures s false)
          [⟨["A"]⟩, ⟨["N"]⟩] (freshSet [twoGen, twiceGen]).feature_gens_)
        fs1.feature_ids_ stored ∧
      fs1.feature_gens_ = (freshSet [twoGen, twiceGen]).feature_gens_ ∧
      fs1.add_ = (freshSet [twoGen, twiceGen]).add_)) :=
  ⟨rfl, rfl, AddEdgeFeatures_sorted (fun (b : Bool) => b) (freshSet [twoGen, twiceGen])
    [⟨["A"]⟩, ⟨["N"]⟩] false ⟨0, 1, 1, HyperEdgeType.EDGE_STR⟩ rfl⟩

/-! ### The hypotheses of a built chart -/

theorem leftNeighbour_ranks (hyp : Hypothesis α) (np : Nat) (nt ot : TargetSpan α) :
    (leftNeighbour hyp np nt ot).left_rank = hyp.left_rank + 1 ∧
    (leftNeighbour hyp np nt ot).right_rank = hyp.right_rank ∧
    (leftNeighbour hyp np nt ot).center = hyp.center := by
  unfold leftNeighbour
  split_ifs <;> exact ⟨rfl, rfl, rfl⟩

theorem rightNeighbour_ranks (hyp : Hypothesis α) (np : Nat) (nt ot : TargetSpan α) :
    (rightNeighbour hyp np nt ot).right_rank = hyp.right_rank + 1 ∧
    (rightNeighbour hyp np nt ot).left_rank = hyp.left_rank ∧
    (rightNeighbour hyp np nt ot).center = hyp.center := by
  unfold rightNeighbour
  split_ifs <;> exact ⟨rfl, rfl, rfl⟩

theorem beamFuel_zero (hg : HyperGraph α) (l r : Int) (q : HypothesisQueue α)
    (h : beamFuel hg l r q = 0) : q = [] := by
  cases q with
  | nil => rfl
  | cons x q =>
    have := hypWeight_pos hg l r x
    simp [beamFuel] at h
    omega

/-- The beam search gives the same result on any two amounts of fuel that are at
least the fuel of its queue. -/
theorem beamLoop_fuel (tie : Hypothesis α → Hypothesis α → Bool) (hg : HyperGraph α)
    (l r : Int) (beam_size : Int) :
    ∀ (f1 f2 : Nat) (st : BeamState α), beamFuel hg l r st.q ≤ f1 →
      beamFuel hg l r st.q ≤ f2 →
      beamLoop tie hg l r beam_size f1 st = beamLoop tie hg l r beam_size f2 st
  | 0, f2, st, h1, _ => by
    have hq : st.q = [] := beamFuel_zero hg l r _ (by omega)
    cases f2 <;> simp [beamLoop, hq]
  | f1 + 1, 0, st, _, h2 => by
    have hq : st.q = [] := beamFuel_zero hg l r _ (by omega)
    simp [beamLoop, hq]
  | f1 + 1, f2 + 1, st, h1, h2 => by
    simp only [beamLoop]
    split_ifs with hc
    · cases hs : beamStep tie hg l r st with
      | error e => rfl
      | ok st1 =>
        have := beamStep_fuel tie hg l r st st1 hs
        exact beamLoop_fuel tie hg l r beam_size f1 f2 st1 (by omega) (by omega)
    · rfl

/-- C18. The expansion loop of `ProcessOneSpan` terminates for every span and
every beam size, 0 (unbounded) included, on every graph. One round pops the
top of the queue and pushes at most two neighbours; a neighbour has one rank
of the popped hypothesis incremented, the other rank and the center kept, and
the incremented rank is below the size of the stack of the child cell; the
fuel of the queue strictly decreases. Hence the loop never runs out of the
fuel `beamFuel` of its first queue, more fuel does not change its result, and
`ProcessOneSpan` never ends for lack of fuel. -/
theorem ProcessOneSpan_loop_terminates (tie : Hypothesis α → Hypothesis α → Bool)
    (hg : HyperGraph α) (l r : Int) (beam_size : Int) (st : BeamState α) :
    (∀ st1, beamStep tie hg l r st = .ok st1 →
      ∃ hyp q2 ql qr, HypothesisQueue.top tie st.q = some hyp ∧
        List.Sublist q2 (st.q.erase hyp) ∧ st1.q = qr ++ (ql ++ q2) ∧
        ql.length ≤ 1 ∧ qr.length ≤ 1 ∧
        (∀ h1 ∈ ql, h1.left_rank = hyp.left_rank + 1 ∧ h1.right_rank = hyp.right_rank ∧
          h1.center = hyp.center ∧ 0 ≤ h1.left_rank ∧
          h1.left_rank.toNat < stackSize hg l (hyp.center - 1)) ∧
        (∀ h1 ∈ qr, h1.right_rank = hyp.right_rank + 1 ∧ h1.left_rank = hyp.left_rank ∧
          h1.center = hyp.center ∧ 0 ≤ h1.right_rank ∧
          h1.right_rank.toNat < stackSize hg hyp.center r) ∧
        beamFuel hg l r st1.q < beamFuel hg l r st.q) ∧
    (∀ fuel, beamFuel hg l r st.q ≤ fuel →
      beamLoop tie hg l r beam_size fuel st ≠ .error Fault.nonTermination ∧
      beamLoop tie hg l r beam_size fuel st =
        beamLoop tie hg l r beam_size (beamFuel hg l r st.q) st) ∧
    (∀ (model : ReordererModel α) (features : FeatureSet σ α) (sent : Sentence),
      ProcessOneSpan tie hg model features sent l r beam_size ≠ .error Fault.nonTermination ∧
      ProcessOneSpan tie hg model features sent l r 0 ≠ .error Fault.nonTermination) := by
  refine ⟨?_, ?_, ?_⟩
  · intro st1 hs
    obtain ⟨hyp, q2, ql, qr, htop, hsub, -, -, hq, hl, hr, hl1, hr1, -⟩ :=
      beamStep_ok tie hg l r st st1 hs
    refine ⟨hyp, q2, ql, qr, htop, hsub, hq, hl1, hr1, ?_, ?_,
      beamStep_fuel tie hg l r st st1 hs⟩
    · intro h1 hh
      obtain ⟨np, op, nt, ot, hnp, -, -, -, rfl⟩ := hl h1 hh
      obtain ⟨e1, e2, e3⟩ := leftNeighbour_ranks hyp np nt ot
      obtain ⟨b1, b2⟩ := GetTrgSpan_some_lt hg _ _ _ _ hnp
      rw [e1]
      exact ⟨rfl, e2, e3, b1, b2⟩
    · intro h1 hh
      obtain ⟨np, op, nt, ot, hnp, -, -, -, rfl⟩ := hr h1 hh
      obtain ⟨e1, e2, e3⟩ := rightNeighbour_ranks hyp np nt ot
      obtain ⟨b1, b2⟩ := GetTrgSpan_some_lt hg _ _ _ _ hnp
      rw [e1]
      exact ⟨rfl, e2, e3, b1, b2⟩
  · intro fuel hf
    exact ⟨beamLoop_terminates tie hg l r beam_size fuel st hf,
      beamLoop_fuel tie hg l r beam_size fuel _ st hf (le_refl _)⟩
  · intro model features sent
    exact ⟨ProcessOneSpan_terminates tie hg model features sent l r beam_size,
      ProcessOneSpan_terminates tie hg model features sent l r 0⟩

/-! ### Child lookups -/

theorem buildCells_append (tie : Hypothesis α → Hypothesis α → Bool) (model : ReordererModel α)
    (sent : Sentence) (beam_size : Int) :
    ∀ (A B : List (Int × Int)) (st : HyperGraph α × FeatureSet σ α),
      buildCells tie model sent beam_size (A ++ B) st =
        match buildCells tie model sent beam_size A st with
        | .error e => .error e
        | .ok st1 => buildCells tie model sent beam_size B st1
  | [], B, st => by simp [buildCells]
  | (l, r) :: A, B, st => by
    simp only [List.cons_append, buildCells]
    cases ProcessOneSpan tie st.1 model st.2 sent l r beam_size with
    | error e => rfl
    | ok res =>
      simp only
      cases SetStack res.2.1 l r res.1 with
      | error e => rfl
      | ok hg1 => exact buildCells_append tie model sent beam_size A B (hg1, res.2.2)

end Proofs

end Kyldr
